import Mathlib

/-!
# MiniMail: a verification development for `server.js`

A shallow embedding of the request handlers of `src/server.js` and proofs of the
properties its specification states about them.

Modelling conventions.

* The persisted state is the three places the server writes to: `users.json`
  (a JSON array of user records), the directory `emails/` (one JSON file per
  message) and the directory `attachments/` (one file per uploaded part).
  A directory is an association list from file name to content, in the order
  in which `fs.readdirSync` enumerates it. Rewriting an existing file keeps its
  place in the enumeration, a new file is enumerated last.
* A file's content is kept in parsed form: `JSON.parse` of what
  `JSON.stringify` wrote. A `Date` is written as its ISO string and read back
  through `new Date(..)`; it is kept as the number of milliseconds it denotes.
* A request field that is absent (`undefined`) is `none`.
* `path.join` normalises the joined path lexically. A path that leaves the
  directory `emails/` addresses a file this development does not represent:
  the handlers return `none` there.
-/

namespace MiniMail

/-! ## Data model -/

/-- A record of `users.json`. -/
structure User where
  email : String
  password : String
  deriving DecidableEq, Repr

/-- An element of the `attachments` array of a message. -/
structure Attachment where
  filename : String
  path : String
  deriving DecidableEq, Repr

/-- The object `POST /send` assembles and `saveEmail` writes. The fields `from` and `to`
are spelled `from_` and `to_`. -/
structure Email where
  id : String
  from_ : String
  to_ : String
  subject : String
  body : String
  date : Nat
  attachments : List Attachment
  read : Bool
  deleted : Bool
  deriving DecidableEq, Repr

/-- A directory: file names with their contents, in enumeration order. -/
abbrev Dir (α : Type) := List (String × α)

/-- The persisted state of the server. -/
structure State where
  users : List User
  emails : Dir Email
  attachments : Dir String
  deriving DecidableEq, Repr

/-- The state right after the first start: `users.json` holds `[]`, both directories are
empty (lines 16-18). -/
def State.initial : State := ⟨[], [], []⟩

/-- What a handler sends back. -/
inductive Response where
  | success
  | loginSuccess (email : Option String)
  | error (status : Nat) (message : String)
  deriving DecidableEq, Repr

/-! ## File system primitives -/

/-- The content of the file `name`, if the directory has one (`fs.existsSync` followed by
`fs.readFileSync`). -/
def Dir.read {α : Type} : Dir α → String → Option α
  | [], _ => none
  | (k, v) :: rest, name => if k = name then some v else Dir.read rest name

/-- The effect of `fs.writeFileSync` on a file of the directory: an existing file is
overwritten, otherwise the file is created. -/
def Dir.write {α : Type} : Dir α → String → α → Dir α
  | [], name, v => [(name, v)]
  | (k, w) :: rest, name, v =>
    if k = name then (k, v) :: rest else (k, w) :: Dir.write rest name v

/-- The effect of `fs.unlinkSync` on a file of the directory. -/
def Dir.unlink {α : Type} : Dir α → String → Dir α
  | [], _ => []
  | (k, v) :: rest, name => if k = name then rest else (k, v) :: Dir.unlink rest name

/-- The file names of a directory (`fs.readdirSync`). -/
def Dir.names {α : Type} (d : Dir α) : List String := d.map Prod.fst

/-- Lexical normalisation of the segments that `path.join` appends to a directory:
empty segments and `.` are dropped, `..` removes the segment before it. The first argument
is the stack of segments below the directory, innermost first. The result is `none` when
a `..` climbs out of the directory. -/
def normalizeBelow : List String → List (List Char) → Option (List String)
  | stack, [] => some stack.reverse
  | stack, seg :: rest =>
    if seg = [] ∨ seg = ['.'] then normalizeBelow stack rest
    else if seg = ['.', '.'] then
      match stack with
      | [] => none
      | _ :: below => normalizeBelow below rest
    else normalizeBelow (String.mk seg :: stack) rest

/-- Where `path.join(EMAILS_DIR, file)` points, relative to `EMAILS_DIR`. -/
def joinEmailsDir (file : String) : Option (List String) :=
  normalizeBelow [] (file.toList.splitOn '/')

/-! ## Helpers of `server.js` -/

/-- The function `loadUsers` (lines 33-35). -/
def loadUsers (st : State) : List User := st.users

/-- The function `saveUsers` (lines 36-38). -/
def saveUsers (users : List User) (st : State) : State := { st with users := users }

/-- The function `loadAllEmails` (lines 39-43): every file of `emails/`, parsed, in
enumeration order. -/
def loadAllEmails (st : State) : List Email := st.emails.map Prod.snd

/-- What `fs.writeFileSync` on a path below `emails/` does: it writes the file, it throws
(the path names the directory itself or a file in a subdirectory, which `emails/` never
has), or the path leaves `emails/`. -/
inductive WriteResult where
  | wrote (st : State)
  | threw
  | outside
  deriving DecidableEq, Repr

/-- The function `saveEmail` (lines 44-46). -/
def saveEmail (email : Email) (st : State) : WriteResult :=
  match joinEmailsDir (email.id ++ ".json") with
  | none => .outside
  | some [name] => .wrote { st with emails := st.emails.write name email }
  | some _ => .threw

/-- The response of the framework when a handler throws. -/
def internalError : Response := .error 500 "Internal Server Error"

/-- The expression `!x` on a request field: true when the field is absent or the empty
string. -/
def missing (field : Option String) : Bool :=
  match field with
  | none => true
  | some s => s == ""

/-! ## `Array.prototype.sort` -/

/-- Insertion of `a` into a list sorted for `cmp`: `a` goes before the first element it does
not have to follow. -/
def sortInsert {α : Type} (cmp : α → α → Int) (a : α) : List α → List α
  | [] => [a]
  | b :: rest => if cmp a b ≤ 0 then a :: b :: rest else b :: sortInsert cmp a rest

/-- The method `Array.prototype.sort` with a comparator: `cmp a b ≤ 0` keeps `a` before `b`.
The sort is stable (ECMAScript 2019), and for a comparator that orders by a key the stable
sorted arrangement is unique, so that insertion from the right computes it. -/
def sort {α : Type} (cmp : α → α → Int) : List α → List α
  | [] => []
  | a :: rest => sortInsert cmp a (sort cmp rest)

/-- The comparator `(a, b) => new Date(b.date) - new Date(a.date)`. -/
def byDateDesc (a b : Email) : Int := (b.date : Int) - (a.date : Int)

/-! ## Listing handlers -/

/-- The filter of `GET /inbox/:user` (line 108). -/
def inboxFilter (user : String) (e : Email) : Bool := e.to_ == user && !e.deleted

/-- The filter of `GET /outbox/:user` (line 117). -/
def outboxFilter (user : String) (e : Email) : Bool := e.from_ == user && !e.deleted

/-- The filter of `GET /trash/:user` (line 126). -/
def trashFilter (user : String) (e : Email) : Bool :=
  e.deleted && (e.to_ == user || e.from_ == user)

/-- The handler `GET /inbox/:user` (lines 105-111). -/
def listInbox (user : String) (st : State) : List Email :=
  sort byDateDesc ((loadAllEmails st).filter (inboxFilter user))

/-- The handler `GET /outbox/:user` (lines 114-120). -/
def listOutbox (user : String) (st : State) : List Email :=
  sort byDateDesc ((loadAllEmails st).filter (outboxFilter user))

/-- The handler `GET /trash/:user` (lines 123-129). -/
def listTrash (user : String) (st : State) : List Email :=
  sort byDateDesc ((loadAllEmails st).filter (trashFilter user))

/-! ## Authentication handlers -/

/-- The handler `POST /register` (lines 51-63). -/
def register (email password : Option String) (st : State) : Response × State :=
  if missing email || missing password then (.error 400 "Missing fields", st)
  else
    let users := loadUsers st
    if (users.find? (fun u => some u.email == email)).isSome then
      (.error 400 "Email already registered", st)
    else
      (.success, saveUsers (users ++ [⟨email.getD "", password.getD ""⟩]) st)

/-- The handler `POST /login` (lines 66-73). -/
def login (email password : Option String) (st : State) : Response × State :=
  let users := loadUsers st
  match users.find? (fun u => some u.email == email && some u.password == password) with
  | none => (.error 401 "Invalid email or password", st)
  | some _ => (.loginSuccess email, st)

/-! ## Sending -/

/-- A file part of a multipart request, with the reading of `Date.now()` at which the
storage engine names it (line 28). The parser has reduced `originalname` to a base name. -/
structure Upload where
  originalname : String
  content : String
  now : Nat
  deriving DecidableEq, Repr

/-- A `POST /send` request: the four text fields of `req.body`, the file parts, the reading
of `Date.now()` on line 84 and the instant of `new Date()` on line 91. The upload middleware
handles multipart bodies only: for such a body `req.files` is the array of its file parts
(`some`), for any other body (JSON, say) it leaves `req.files` undefined (`none`). -/
structure SendRequest where
  from_ : Option String
  to_ : Option String
  subject : Option String
  body : Option String
  files : Option (List Upload)
  now : Nat
  date : Nat
  deriving DecidableEq, Repr

/-- The `filename` callback of the disk storage (line 28). -/
def storedName (f : Upload) : String := toString f.now ++ "-" ++ f.originalname

/-- The disk storage of lines 26-30 at work on the file parts of a multipart body: every
part is written to `attachments/` under its stored name, in order. -/
def upload (files : List Upload) (st : State) : State :=
  files.foldl (fun s f => { s with attachments := s.attachments.write (storedName f) f.content })
    st

/-- The middleware `upload.array("attachments")` of line 78, which runs before the handler:
it stores the file parts of a multipart body and passes any other body on untouched. -/
def uploadArray (files : Option (List Upload)) (st : State) : State :=
  match files with
  | none => st
  | some parts => upload parts st

/-- The array `req.files.map(..)` of lines 92-95. -/
def attachmentsOf (files : List Upload) : List Attachment :=
  files.map (fun f => ⟨f.originalname, "/attachments/" ++ storedName f⟩)

/-- The object assembled on lines 84-98 when `req.files` is the array `files`: the id is the
decimal numeral of `Date.now()`. -/
def assemble (req : SendRequest) (files : List Upload) : Email :=
  { id := toString req.now
    from_ := req.from_.getD ""
    to_ := req.to_.getD ""
    subject := req.subject.getD ""
    body := req.body.getD ""
    date := req.date
    attachments := attachmentsOf files
    read := false
    deleted := false }

/-- The handler `POST /send` behind its upload middleware (lines 78-102). When `req.files`
is undefined, `req.files.map` on line 92 throws before anything is saved. -/
def send (req : SendRequest) (st : State) : Option (Response × State) :=
  let st1 := uploadArray req.files st
  if missing req.from_ || missing req.to_ || missing req.subject || missing req.body then
    some (.error 400 "Missing fields", st1)
  else
    match req.files with
    | none => some (internalError, st1)
    | some files =>
      match saveEmail (assemble req files) st1 with
      | .wrote st2 => some (.success, st2)
      | .threw => some (internalError, st1)
      | .outside => none

/-! ## Delete and restore -/

/-- The assignment `email.deleted = flag` of lines 141 and 155. -/
def Email.withDeleted (e : Email) (flag : Bool) : Email := { e with deleted := flag }

/-- The common shape of `POST /delete/:id/:user` and `POST /restore/:id/:user`: the file
`id + ".json"` is read, its `deleted` field is set to `flag`, and the record is saved. -/
def setDeleted (flag : Bool) (id : String) (st : State) : Option (Response × State) :=
  match joinEmailsDir (id ++ ".json") with
  | none => none
  | some [] => some (internalError, st)
  | some [name] =>
    match st.emails.read name with
    | none => some (.error 404 "Email not found", st)
    | some email =>
      match saveEmail (email.withDeleted flag) st with
      | .wrote st2 => some (.success, st2)
      | .threw => some (internalError, st)
      | .outside => none
  | some _ => some (.error 404 "Email not found", st)

/-- The handler `POST /delete/:id/:user` (lines 134-145). -/
def softDelete (id _user : String) (st : State) : Option (Response × State) :=
  setDeleted true id st

/-- The handler `POST /restore/:id/:user` (lines 148-159). -/
def restore (id _user : String) (st : State) : Option (Response × State) :=
  setDeleted false id st

/-- The handler `DELETE /permadelete/:id` (lines 162-169). -/
def permanentDelete (id : String) (st : State) : Option (Response × State) :=
  match joinEmailsDir (id ++ ".json") with
  | none => none
  | some [] => some (internalError, st)
  | some [name] =>
    match st.emails.read name with
    | none => some (.error 404 "Email not found", st)
    | some _ => some (.success, { st with emails := st.emails.unlink name })
  | some _ => some (.error 404 "Email not found", st)

/-! ## Request sequences -/

/-- The requests that change the persisted messages. -/
inductive Request where
  | send (req : SendRequest)
  | softDelete (id user : String)
  | restore (id user : String)
  | permanentDelete (id : String)
  deriving DecidableEq, Repr

/-- The state a request leaves behind. -/
def step (q : Request) (st : State) : Option State :=
  match q with
  | .send req => (send req st).map Prod.snd
  | .softDelete id user => (softDelete id user st).map Prod.snd
  | .restore id user => (restore id user st).map Prod.snd
  | .permanentDelete id => (permanentDelete id st).map Prod.snd

/-- The state a sequence of requests, served one after the other, leaves behind. -/
def run : List Request → State → Option State
  | [], st => some st
  | q :: rest, st => (step q st).bind (run rest)

/-! ## Predicates used in the statements -/

/-- A request field that passes the check of the handlers: supplied and not empty. -/
def present (field : Option String) : Prop := missing field = false

instance (field : Option String) : Decidable (present field) := by
  unfold present; infer_instance

/-- A send request that passes the check on line 80. -/
def SendRequest.complete (req : SendRequest) : Prop :=
  present req.from_ ∧ present req.to_ ∧ present req.subject ∧ present req.body

instance (req : SendRequest) : Decidable req.complete := by
  unfold SendRequest.complete; infer_instance

/-- An id without a path separator. -/
def plainId (id : String) : Prop := '/' ∉ id.toList

instance (id : String) : Decidable (plainId id) := by
  unfold plainId; infer_instance

/-- The ids a request carries in its path have no path separator. -/
def Request.plain : Request → Prop
  | .send _ => True
  | .softDelete id _ => plainId id
  | .restore id _ => plainId id
  | .permanentDelete id => plainId id

instance (q : Request) : Decidable q.plain := by
  cases q <;> unfold Request.plain <;> infer_instance

/-- The layout of `emails/`: file names are distinct, no file name has a path separator,
and every file is named by the id of the record it holds (as `saveEmail` names it). -/
def WellFormed (st : State) : Prop :=
  st.emails.names.Nodup ∧ ∀ p ∈ st.emails, p.1 = p.2.id ++ ".json" ∧ '/' ∉ p.1.toList

instance (st : State) : Decidable (WellFormed st) := by
  unfold WellFormed; infer_instance

/-- The value of a decimal numeral read from the left, starting from `acc`. -/
def digitsValue (acc : Nat) : List Char → Nat
  | [] => acc
  | c :: cs => digitsValue (acc * 10 + (c.toNat - 48)) cs

/-- The record that a send request created is still in its file, with the fields it was sent
with; only `deleted` may differ. -/
def Kept (req : SendRequest) (files : List Upload) (st : State) : Prop :=
  WellFormed st ∧
    ∃ e, st.emails.read (toString req.now ++ ".json") = some e
      ∧ e.withDeleted false = assemble req files

/-! ## Sample data -/

/-- A message as `POST /send` stores it. -/
def sampleEmail : Email :=
  { id := "1700000000000", from_ := "a@x", to_ := "b@x", subject := "hi", body := "yo",
    date := 1700000000000, attachments := [], read := false, deleted := false }

/-- A store holding `sampleEmail` and one registered user. -/
def sampleState : State :=
  { users := [⟨"a@x", "pw"⟩], emails := [("1700000000000.json", sampleEmail)],
    attachments := [] }

/-- A complete multipart send request without file parts, served at the instant `5`. -/
def sampleSend : SendRequest :=
  { from_ := some "a@x", to_ := some "b@x", subject := some "hi", body := some "yo",
    files := some [], now := 5, date := 5 }

/-- Another complete multipart send request served at the same instant `5`. -/
def sampleSendAgain : SendRequest :=
  { from_ := some "c@x", to_ := some "d@x", subject := some "re", body := some "ok",
    files := some [], now := 5, date := 5 }

/-- A send request without `from` that carries one file part. -/
def sampleSendInvalid : SendRequest :=
  { from_ := none, to_ := some "b@x", subject := some "hi", body := some "yo",
    files := some [⟨"f.txt", "data", 5⟩], now := 6, date := 6 }

/-- A complete send request served at the later instant `7`. -/
def sampleSendLater : SendRequest :=
  { from_ := some "b@x", to_ := some "a@x", subject := some "re", body := some "ok",
    files := some [⟨"g.txt", "more", 7⟩], now := 7, date := 8 }

/-- A complete send request with a JSON body, served at the instant `5`: `req.files` is
undefined. -/
def sampleSendJson : SendRequest :=
  { from_ := some "a@x", to_ := some "b@x", subject := some "hi", body := some "yo",
    files := none, now := 5, date := 5 }

/-- Requests served after `sampleSend`: none of them removes its record. -/
def sampleLater : List Request :=
  [.softDelete "5" "b@x", .send sampleSendLater, .restore "5" "a@x", .send sampleSendJson,
    .softDelete "5" "a@x", .permanentDelete "7"]

/-! ## Decimal numerals -/

theorem digitChar_ne_slash (k : Nat) (h : k < 10) : Nat.digitChar k ≠ '/' := by
  interval_cases k <;> decide

theorem toDigitsCore_no_slash (f : Nat) : ∀ (n : Nat) (ds : List Char),
    '/' ∉ ds → '/' ∉ Nat.toDigitsCore 10 f n ds := by
  induction f with
  | zero => intro n ds h; simpa [Nat.toDigitsCore] using h
  | succ f ih =>
    intro n ds h
    have hd : '/' ∉ Nat.digitChar (n % 10) :: ds := by
      intro hmem
      rcases List.mem_cons.mp hmem with h1 | h1
      · exact digitChar_ne_slash _ (Nat.mod_lt _ (by decide)) h1.symm
      · exact h h1
    simp only [Nat.toDigitsCore]
    split
    · exact hd
    · exact ih _ _ hd

theorem toString_nat_no_slash (n : Nat) : '/' ∉ (toString n).toList := by
  show '/' ∉ (Nat.repr n).toList
  unfold Nat.repr Nat.toDigits
  simpa [List.asString] using toDigitsCore_no_slash (n + 1) n [] (by simp)

theorem digitsValue_cons (acc : Nat) (c : Char) (cs : List Char) :
    digitsValue acc (c :: cs) = digitsValue (acc * 10 + (c.toNat - 48)) cs := rfl

theorem digitChar_value (k : Nat) (h : k < 10) : (Nat.digitChar k).toNat - 48 = k := by
  interval_cases k <;> decide

theorem digitsValue_toDigitsCore (f : Nat) : ∀ (n : Nat) (ds : List Char), n < f →
    digitsValue 0 (Nat.toDigitsCore 10 f n ds) = digitsValue n ds := by
  induction f with
  | zero => intro n ds h; omega
  | succ f ih =>
    intro n ds h
    simp only [Nat.toDigitsCore]
    split
    · rename_i h0
      have hn : 0 * 10 + n % 10 = n := by omega
      rw [digitsValue_cons, digitChar_value (n % 10) (Nat.mod_lt _ (by decide)), hn]
    · rename_i h0
      have hn : n / 10 * 10 + n % 10 = n := by omega
      have hlt : n / 10 < f := by omega
      rw [ih _ _ hlt, digitsValue_cons, digitChar_value (n % 10) (Nat.mod_lt _ (by decide)), hn]

theorem digitsValue_toDigits (n : Nat) : digitsValue 0 (Nat.repr n).data = n :=
  digitsValue_toDigitsCore (n + 1) n [] (Nat.lt_succ_self n)

theorem toString_nat_injective (m n : Nat) (h : toString m = toString n) : m = n := by
  have h1 : Nat.repr m = Nat.repr n := h
  have hm := digitsValue_toDigits m
  rw [h1, digitsValue_toDigits n] at hm
  exact hm.symm

/-! ## Paths -/

theorem normalizeBelow_single (seg : List Char) (h : 3 ≤ seg.length) :
    normalizeBelow [] [seg] = some [String.mk seg] := by
  have h1 : ¬ (seg = [] ∨ seg = ['.']) := by
    rintro (h0 | h0) <;> rw [h0] at h <;> simp at h
  have h2 : seg ≠ ['.', '.'] := by
    intro h0; rw [h0] at h; simp at h
  unfold normalizeBelow
  rw [if_neg h1, if_neg h2]
  rfl

theorem joinEmailsDir_plain (id : String) (h : plainId id) :
    joinEmailsDir (id ++ ".json") = some [id ++ ".json"] := by
  unfold joinEmailsDir
  have hdata : (id ++ ".json").toList = id.data ++ ['.', 'j', 's', 'o', 'n'] := by
    show (id ++ ".json").data = _
    rw [String.data_append]
  have hno : ∀ x ∈ (id ++ ".json").toList, ¬ ((x == '/') = true) := by
    intro x hx hx2
    have hx3 : x = '/' := by simpa using hx2
    subst hx3
    rw [hdata] at hx
    rcases List.mem_append.mp hx with h1 | h1
    · exact h h1
    · revert h1; decide
  have hsplit : (id ++ ".json").toList.splitOn '/' = [(id ++ ".json").toList] :=
    List.splitOnP_eq_single _ _ hno
  have hlen : 5 ≤ (id ++ ".json").toList.length := by
    rw [hdata]; simp
  rw [hsplit]
  exact normalizeBelow_single _ (by omega)

theorem plainId_of_json (id : String) (h : '/' ∉ (id ++ ".json").toList) : plainId id := by
  intro hmem
  apply h
  show '/' ∈ (id ++ ".json").data
  rw [String.data_append]
  exact List.mem_append_left _ hmem

theorem json_name_injective (a b : String) (h : a ++ ".json" = b ++ ".json") : a = b := by
  have h1 := congrArg String.data h
  rw [String.data_append, String.data_append] at h1
  have h2 := List.append_cancel_right h1
  exact String.ext h2

/-! ## Directories -/

theorem Dir.mem_names {α : Type} (d : Dir α) (p : String × α) (h : p ∈ d) :
    p.1 ∈ d.names :=
  List.mem_map_of_mem Prod.fst h

theorem Dir.read_mem {α : Type} (d : Dir α) (k : String) (v : α) (h : d.read k = some v) :
    (k, v) ∈ d := by
  induction d with
  | nil => simp [Dir.read] at h
  | cons p rest ih =>
    obtain ⟨k0, v0⟩ := p
    unfold Dir.read at h
    by_cases hk : k0 = k
    · rw [if_pos hk] at h
      cases h
      subst hk
      exact List.mem_cons_self _ _
    · rw [if_neg hk] at h
      exact List.mem_cons_of_mem _ (ih h)

theorem Dir.read_eq_none {α : Type} (d : Dir α) (k : String) :
    d.read k = none ↔ k ∉ d.names := by
  induction d with
  | nil => simp [Dir.read, Dir.names]
  | cons p rest ih =>
    obtain ⟨k0, v0⟩ := p
    unfold Dir.read
    by_cases hk : k0 = k
    · rw [if_pos hk]; simp [Dir.names, hk]
    · rw [if_neg hk, ih]
      simp only [Dir.names, List.map_cons, List.mem_cons, not_or]
      exact ⟨fun h => ⟨fun e => hk e.symm, h⟩, fun h => h.2⟩

theorem Dir.read_of_mem {α : Type} (d : Dir α) (k : String) (v : α)
    (hnd : d.names.Nodup) (h : (k, v) ∈ d) : d.read k = some v := by
  induction d with
  | nil => simp at h
  | cons p rest ih =>
    obtain ⟨k0, v0⟩ := p
    have hnd2 := List.nodup_cons.mp hnd
    unfold Dir.read
    rcases List.mem_cons.mp h with heq | hin
    · cases heq
      rw [if_pos rfl]
    · have hk : k0 ≠ k := by
        intro e
        subst e
        exact hnd2.1 (Dir.mem_names rest (k0, v) hin)
      rw [if_neg hk]
      exact ih hnd2.2 hin

theorem Dir.read_write {α : Type} (d : Dir α) (k k2 : String) (v : α) :
    (d.write k v).read k2 = if k = k2 then some v else d.read k2 := by
  induction d with
  | nil => simp [Dir.write, Dir.read]
  | cons p rest ih =>
    obtain ⟨k0, v0⟩ := p
    unfold Dir.write
    by_cases hk : k0 = k
    · subst hk
      rw [if_pos rfl]
      unfold Dir.read
      by_cases hk2 : k0 = k2
      · rw [if_pos hk2, if_pos hk2]
      · rw [if_neg hk2, if_neg hk2, if_neg hk2]
    · rw [if_neg hk]
      unfold Dir.read
      by_cases hk2 : k0 = k2
      · rw [if_pos hk2, if_pos hk2]
        have : k ≠ k2 := fun e => hk (hk2.trans e.symm)
        rw [if_neg this]
      · rw [if_neg hk2, if_neg hk2, ih]

theorem Dir.write_self {α : Type} (d : Dir α) (k : String) (v : α) (h : d.read k = some v) :
    d.write k v = d := by
  induction d with
  | nil => simp [Dir.read] at h
  | cons p rest ih =>
    obtain ⟨k0, v0⟩ := p
    unfold Dir.read at h
    unfold Dir.write
    by_cases hk : k0 = k
    · rw [if_pos hk] at h
      cases h
      rw [if_pos hk]
    · rw [if_neg hk] at h
      rw [if_neg hk, ih h]

theorem Dir.write_write {α : Type} (d : Dir α) (k : String) (v w : α) :
    (d.write k v).write k w = d.write k w := by
  induction d with
  | nil => simp [Dir.write]
  | cons p rest ih =>
    obtain ⟨k0, v0⟩ := p
    by_cases hk : k0 = k
    · simp [Dir.write, hk]
    · simp [Dir.write, hk, ih]

theorem Dir.write_eq_map {α : Type} (d : Dir α) (k : String) (v w : α)
    (hnd : d.names.Nodup) (h : d.read k = some w) :
    d.write k v = d.map (fun p => if p.1 = k then (p.1, v) else p) := by
  induction d with
  | nil => simp [Dir.read] at h
  | cons p rest ih =>
    obtain ⟨k0, v0⟩ := p
    have hnd2 := List.nodup_cons.mp hnd
    unfold Dir.read at h
    unfold Dir.write
    by_cases hk : k0 = k
    · subst hk
      rw [if_pos rfl, List.map_cons, if_pos rfl]
      congr 1
      symm
      calc rest.map (fun p => if p.1 = k0 then (p.1, v) else p)
          = rest.map id := by
            apply List.map_congr_left
            intro q hq
            have : q.1 ≠ k0 := by
              intro e
              exact hnd2.1 (e ▸ Dir.mem_names rest q hq)
            simp [this]
        _ = rest := List.map_id _
    · rw [if_neg hk] at h
      rw [if_neg hk, List.map_cons, if_neg hk, ih hnd2.2 h]

theorem Dir.write_new {α : Type} (d : Dir α) (k : String) (v : α) (h : d.read k = none) :
    d.write k v = d ++ [(k, v)] := by
  induction d with
  | nil => rfl
  | cons p rest ih =>
    obtain ⟨k0, v0⟩ := p
    unfold Dir.read at h
    unfold Dir.write
    by_cases hk : k0 = k
    · rw [if_pos hk] at h; cases h
    · rw [if_neg hk] at h
      rw [if_neg hk, ih h]
      rfl

theorem Dir.mem_write {α : Type} (d : Dir α) (k : String) (v : α) (p : String × α)
    (h : p ∈ d.write k v) : p ∈ d ∨ p = (k, v) := by
  induction d with
  | nil =>
    right
    simpa [Dir.write] using h
  | cons q rest ih =>
    obtain ⟨k0, v0⟩ := q
    unfold Dir.write at h
    by_cases hk : k0 = k
    · rw [if_pos hk] at h
      rcases List.mem_cons.mp h with h1 | h1
      · right; rw [h1, hk]
      · left; exact List.mem_cons_of_mem _ h1
    · rw [if_neg hk] at h
      rcases List.mem_cons.mp h with h1 | h1
      · left; rw [h1]; exact List.mem_cons_self _ _
      · rcases ih h1 with h2 | h2
        · left; exact List.mem_cons_of_mem _ h2
        · right; exact h2

theorem Dir.names_write_nodup {α : Type} (d : Dir α) (k : String) (v : α)
    (hnd : d.names.Nodup) : (d.write k v).names.Nodup := by
  cases hr : d.read k with
  | none =>
    rw [Dir.write_new d k v hr]
    have hk := (Dir.read_eq_none d k).mp hr
    unfold Dir.names at *
    rw [List.map_append]
    refine List.Nodup.append hnd (by simp) ?_
    intro x hx hx2
    have : x = k := by simpa using hx2
    exact hk (this ▸ hx)
  | some w =>
    rw [Dir.write_eq_map d k v w hnd hr]
    have : Dir.names (d.map (fun p => if p.1 = k then (p.1, v) else p)) = Dir.names d := by
      unfold Dir.names
      rw [List.map_map]
      apply List.map_congr_left
      intro q _
      by_cases hq : q.1 = k <;> simp [hq]
    rw [this]
    exact hnd

theorem Dir.unlink_eq_filter {α : Type} (d : Dir α) (k : String) (hnd : d.names.Nodup) :
    d.unlink k = d.filter (fun p => decide (p.1 ≠ k)) := by
  induction d with
  | nil => rfl
  | cons p rest ih =>
    obtain ⟨k0, v0⟩ := p
    have hnd2 := List.nodup_cons.mp hnd
    unfold Dir.unlink
    by_cases hk : k0 = k
    · subst hk
      rw [if_pos rfl, List.filter_cons]
      simp only [ne_eq, not_true_eq_false, decide_False, Bool.false_eq_true, if_false]
      symm
      apply List.filter_eq_self.mpr
      intro q hq
      have : q.1 ≠ k0 := by
        intro e
        exact hnd2.1 (e ▸ Dir.mem_names rest q hq)
      simpa using this
    · rw [if_neg hk, List.filter_cons, ih hnd2.2]
      simp [hk]

/-! ## The layout of the message directory -/

theorem mem_loadAllEmails (st : State) (e : Email) :
    e ∈ loadAllEmails st ↔ ∃ name, (name, e) ∈ st.emails := by
  unfold loadAllEmails
  constructor
  · intro h
    obtain ⟨p, hp, rfl⟩ := List.mem_map.mp h
    exact ⟨p.1, hp⟩
  · rintro ⟨name, h⟩
    exact List.mem_map.mpr ⟨(name, e), h, rfl⟩

theorem WellFormed.read_name {st : State} (hwf : WellFormed st) {name : String} {e : Email}
    (h : st.emails.read name = some e) : name = e.id ++ ".json" ∧ plainId e.id := by
  have hm := hwf.2 _ (Dir.read_mem _ _ _ h)
  refine ⟨hm.1, ?_⟩
  apply plainId_of_json
  have h2 := hm.2
  rw [hm.1] at h2
  exact h2

theorem WellFormed.read_id {st : State} (hwf : WellFormed st) {id : String} {e : Email}
    (h : st.emails.read (id ++ ".json") = some e) : e.id = id :=
  (json_name_injective _ _ (hwf.read_name h).1).symm

theorem WellFormed.read_of_loaded {st : State} (hwf : WellFormed st) {e : Email}
    (h : e ∈ loadAllEmails st) : st.emails.read (e.id ++ ".json") = some e := by
  obtain ⟨name, hn⟩ := (mem_loadAllEmails st e).mp h
  have hm : name = e.id ++ ".json" := (hwf.2 _ hn).1
  have := Dir.read_of_mem _ _ _ hwf.1 hn
  rw [hm] at this
  exact this

theorem WellFormed.plain_of_mem {st : State} (hwf : WellFormed st) {e : Email}
    (h : e ∈ loadAllEmails st) : plainId e.id :=
  (hwf.read_name (hwf.read_of_loaded h)).2

theorem WellFormed.read_none_iff {st : State} (hwf : WellFormed st) (id : String) :
    st.emails.read (id ++ ".json") = none ↔ ∀ e ∈ loadAllEmails st, e.id ≠ id := by
  constructor
  · intro h e he hid
    have := hwf.read_of_loaded he
    rw [hid, h] at this
    cases this
  · intro h
    cases hr : st.emails.read (id ++ ".json") with
    | none => rfl
    | some e =>
      exfalso
      exact h e ((mem_loadAllEmails st e).mpr ⟨_, Dir.read_mem _ _ _ hr⟩) (hwf.read_id hr)

theorem WellFormed.after_write {st : State} (hwf : WellFormed st) (e : Email) (hp : plainId e.id) :
    WellFormed { st with emails := st.emails.write (e.id ++ ".json") e } := by
  refine ⟨Dir.names_write_nodup _ _ _ hwf.1, ?_⟩
  intro p hp2
  rcases Dir.mem_write _ _ _ _ hp2 with h | h
  · exact hwf.2 p h
  · subst h
    refine ⟨rfl, ?_⟩
    intro hmem
    have hd : '/' ∈ (e.id ++ ".json").data := hmem
    rw [String.data_append] at hd
    rcases List.mem_append.mp hd with h1 | h1
    · exact hp h1
    · revert h1; decide

theorem WellFormed.after_unlink {st : State} (hwf : WellFormed st) (name : String) :
    WellFormed { st with emails := st.emails.unlink name } := by
  have heq := Dir.unlink_eq_filter st.emails name hwf.1
  refine ⟨?_, ?_⟩
  · show (Dir.names (st.emails.unlink name)).Nodup
    rw [heq]
    exact List.Nodup.sublist (List.Sublist.map _ (List.filter_sublist _)) hwf.1
  · intro p hp
    have hp2 : p ∈ st.emails.unlink name := hp
    rw [heq] at hp2
    exact hwf.2 p (List.mem_filter.mp hp2).1

theorem wellFormed_initial : WellFormed State.initial := by decide

/-! ## The handlers on a well-formed directory -/

theorem saveEmail_plain (e : Email) (st : State) (hp : plainId e.id) :
    saveEmail e st = .wrote { st with emails := st.emails.write (e.id ++ ".json") e } := by
  unfold saveEmail
  rw [joinEmailsDir_plain _ hp]

theorem setDeleted_missing (flag : Bool) (id : String) (st : State) (hp : plainId id)
    (h : st.emails.read (id ++ ".json") = none) :
    setDeleted flag id st = some (.error 404 "Email not found", st) := by
  unfold setDeleted
  rw [joinEmailsDir_plain _ hp]
  simp only [h]

theorem setDeleted_found (flag : Bool) (id : String) (st : State) (hwf : WellFormed st)
    (e : Email) (h : st.emails.read (id ++ ".json") = some e) :
    setDeleted flag id st = some (.success,
      { st with emails := st.emails.write (id ++ ".json") (e.withDeleted flag) }) := by
  have hid : e.id = id := hwf.read_id h
  have hp : plainId id := hid ▸ (hwf.read_name h).2
  have hp2 : plainId (e.withDeleted flag).id := by
    show plainId e.id
    rw [hid]; exact hp
  unfold setDeleted
  rw [joinEmailsDir_plain _ hp]
  simp only [h]
  rw [saveEmail_plain _ _ hp2]
  show some (Response.success,
    { st with emails := st.emails.write (e.id ++ ".json") (e.withDeleted flag) }) = _
  rw [hid]

theorem permanentDelete_missing (id : String) (st : State) (hp : plainId id)
    (h : st.emails.read (id ++ ".json") = none) :
    permanentDelete id st = some (.error 404 "Email not found", st) := by
  unfold permanentDelete
  rw [joinEmailsDir_plain _ hp]
  simp only [h]

theorem permanentDelete_found (id : String) (st : State) (hp : plainId id)
    (e : Email) (h : st.emails.read (id ++ ".json") = some e) :
    permanentDelete id st
      = some (.success, { st with emails := st.emails.unlink (id ++ ".json") }) := by
  unfold permanentDelete
  rw [joinEmailsDir_plain _ hp]
  simp only [h]

/-! ## Facts about the sort -/

theorem sortInsert_perm {α : Type} (cmp : α → α → Int) (a : α) (l : List α) :
    (sortInsert cmp a l).Perm (a :: l) := by
  induction l with
  | nil => exact List.Perm.refl _
  | cons b rest ih =>
    unfold sortInsert
    split
    · exact List.Perm.refl _
    · exact (List.Perm.cons b ih).trans (List.Perm.swap a b rest)

theorem sort_perm {α : Type} (cmp : α → α → Int) (l : List α) : (sort cmp l).Perm l := by
  induction l with
  | nil => exact List.Perm.refl _
  | cons a rest ih =>
    exact (sortInsert_perm cmp a (sort cmp rest)).trans (List.Perm.cons a ih)

theorem mem_sort {α : Type} (cmp : α → α → Int) (l : List α) (x : α) :
    x ∈ sort cmp l ↔ x ∈ l :=
  (sort_perm cmp l).mem_iff

theorem sortInsert_byDateDesc_sorted (a : Email) (l : List Email)
    (h : l.Pairwise (fun x y => y.date ≤ x.date)) :
    (sortInsert byDateDesc a l).Pairwise (fun x y => y.date ≤ x.date) := by
  induction l with
  | nil => simp [sortInsert]
  | cons b rest ih =>
    have hb := List.pairwise_cons.mp h
    unfold sortInsert
    split
    · rename_i hle
      have hba : b.date ≤ a.date := by
        unfold byDateDesc at hle
        omega
      refine List.pairwise_cons.mpr ⟨?_, h⟩
      intro y hy
      rcases List.mem_cons.mp hy with rfl | hy
      · exact hba
      · exact le_trans (hb.1 y hy) hba
    · rename_i hgt
      have hab : a.date ≤ b.date := by
        unfold byDateDesc at hgt
        omega
      refine List.pairwise_cons.mpr ⟨?_, ih hb.2⟩
      intro y hy
      rcases List.mem_cons.mp ((sortInsert_perm byDateDesc a rest).mem_iff.mp hy) with rfl | hy
      · exact hab
      · exact hb.1 y hy

theorem sort_byDateDesc_sorted (l : List Email) :
    (sort byDateDesc l).Pairwise (fun x y => y.date ≤ x.date) := by
  induction l with
  | nil => exact List.Pairwise.nil
  | cons a rest ih => exact sortInsert_byDateDesc_sorted a _ ih

theorem sortInsert_byDateDesc_filter (d : Nat) (a : Email) (l : List Email) :
    (sortInsert byDateDesc a l).filter (fun e => decide (e.date = d))
      = (a :: l).filter (fun e => decide (e.date = d)) := by
  induction l with
  | nil => rfl
  | cons b rest ih =>
    unfold sortInsert
    split
    · rfl
    · rename_i hgt
      have hab : a.date < b.date := by
        unfold byDateDesc at hgt
        omega
      rw [List.filter_cons, ih]
      by_cases hb : b.date = d
      · have ha : a.date ≠ d := by omega
        simp [List.filter_cons, hb, ha]
      · simp [List.filter_cons, hb]

theorem sort_byDateDesc_filter (d : Nat) (l : List Email) :
    (sort byDateDesc l).filter (fun e => decide (e.date = d))
      = l.filter (fun e => decide (e.date = d)) := by
  induction l with
  | nil => rfl
  | cons a rest ih =>
    show (sortInsert byDateDesc a (sort byDateDesc rest)).filter _ = _
    rw [sortInsert_byDateDesc_filter, List.filter_cons, List.filter_cons, ih]

theorem inboxFilter_iff (user : String) (e : Email) :
    inboxFilter user e = true ↔ e.to_ = user ∧ e.deleted = false := by
  simp [inboxFilter]

theorem outboxFilter_iff (user : String) (e : Email) :
    outboxFilter user e = true ↔ e.from_ = user ∧ e.deleted = false := by
  simp [outboxFilter]

theorem trashFilter_iff (user : String) (e : Email) :
    trashFilter user e = true ↔ e.deleted = true ∧ (e.to_ = user ∨ e.from_ = user) := by
  simp [trashFilter]

/-! ## The listings -/

theorem mem_listInbox (st : State) (user : String) (e : Email) :
    e ∈ listInbox user st ↔ e ∈ loadAllEmails st ∧ e.to_ = user ∧ e.deleted = false := by
  unfold listInbox; rw [mem_sort, List.mem_filter, inboxFilter_iff]

theorem mem_listOutbox (st : State) (user : String) (e : Email) :
    e ∈ listOutbox user st ↔ e ∈ loadAllEmails st ∧ e.from_ = user ∧ e.deleted = false := by
  unfold listOutbox; rw [mem_sort, List.mem_filter, outboxFilter_iff]

theorem mem_listTrash (st : State) (user : String) (e : Email) :
    e ∈ listTrash user st ↔
      e ∈ loadAllEmails st ∧ e.deleted = true ∧ (e.to_ = user ∨ e.from_ = user) := by
  unfold listTrash; rw [mem_sort, List.mem_filter, trashFilter_iff]

/-- C1: each listing returns exactly the persisted records that satisfy its folder predicate:
it is a rearrangement of the records selected from the store (nothing dropped, duplicated
or altered), and a record is listed iff it is persisted and satisfies the predicate. -/
theorem listing_selects_folder (st : State) (user : String) :
    ((listInbox user st).Perm
        ((loadAllEmails st).filter (fun e => decide (e.to_ = user ∧ e.deleted = false)))
      ∧ ∀ e, e ∈ listInbox user st ↔ e ∈ loadAllEmails st ∧ e.to_ = user ∧ e.deleted = false)
    ∧ ((listOutbox user st).Perm
        ((loadAllEmails st).filter (fun e => decide (e.from_ = user ∧ e.deleted = false)))
      ∧ ∀ e, e ∈ listOutbox user st ↔
          e ∈ loadAllEmails st ∧ e.from_ = user ∧ e.deleted = false)
    ∧ ((listTrash user st).Perm
        ((loadAllEmails st).filter
          (fun e => decide (e.deleted = true ∧ (e.to_ = user ∨ e.from_ = user))))
      ∧ ∀ e, e ∈ listTrash user st ↔
          e ∈ loadAllEmails st ∧ e.deleted = true ∧ (e.to_ = user ∨ e.from_ = user)) := by
  have hin : inboxFilter user = fun e => decide (e.to_ = user ∧ e.deleted = false) := by
    funext e; rw [Bool.eq_iff_iff, inboxFilter_iff]; simp
  have hout : outboxFilter user = fun e => decide (e.from_ = user ∧ e.deleted = false) := by
    funext e; rw [Bool.eq_iff_iff, outboxFilter_iff]; simp
  have htr : trashFilter user
      = fun e => decide (e.deleted = true ∧ (e.to_ = user ∨ e.from_ = user)) := by
    funext e; rw [Bool.eq_iff_iff, trashFilter_iff]; simp
  refine ⟨⟨?_, ?_⟩, ⟨?_, ?_⟩, ⟨?_, ?_⟩⟩
  · unfold listInbox; rw [hin]; exact sort_perm _ _
  · exact mem_listInbox st user
  · unfold listOutbox; rw [hout]; exact sort_perm _ _
  · exact mem_listOutbox st user
  · unfold listTrash; rw [htr]; exact sort_perm _ _
  · exact mem_listTrash st user

/-- C2: each listing is ordered by date, most recent first, and the records of any one date
appear in it in the order in which the store enumerates them (the sort is stable). -/
theorem listing_sorted_stable (st : State) (user : String) :
    ((listInbox user st).Pairwise (fun x y => y.date ≤ x.date)
      ∧ ∀ d, (listInbox user st).filter (fun e => decide (e.date = d))
          = (loadAllEmails st).filter
              (fun e => decide ((e.to_ = user ∧ e.deleted = false) ∧ e.date = d)))
    ∧ ((listOutbox user st).Pairwise (fun x y => y.date ≤ x.date)
      ∧ ∀ d, (listOutbox user st).filter (fun e => decide (e.date = d))
          = (loadAllEmails st).filter
              (fun e => decide ((e.from_ = user ∧ e.deleted = false) ∧ e.date = d)))
    ∧ ((listTrash user st).Pairwise (fun x y => y.date ≤ x.date)
      ∧ ∀ d, (listTrash user st).filter (fun e => decide (e.date = d))
          = (loadAllEmails st).filter
              (fun e => decide ((e.deleted = true ∧ (e.to_ = user ∨ e.from_ = user))
                ∧ e.date = d))) := by
  refine ⟨⟨sort_byDateDesc_sorted _, ?_⟩, ⟨sort_byDateDesc_sorted _, ?_⟩,
    ⟨sort_byDateDesc_sorted _, ?_⟩⟩
  · intro d
    unfold listInbox
    rw [sort_byDateDesc_filter, List.filter_filter]
    congr 1; funext e
    rw [Bool.eq_iff_iff]; simp [inboxFilter_iff, and_comm]
  · intro d
    unfold listOutbox
    rw [sort_byDateDesc_filter, List.filter_filter]
    congr 1; funext e
    rw [Bool.eq_iff_iff]; simp [outboxFilter_iff, and_comm]
  · intro d
    unfold listTrash
    rw [sort_byDateDesc_filter, List.filter_filter]
    congr 1; funext e
    rw [Bool.eq_iff_iff]; simp [trashFilter_iff, and_comm]

/-! ## Delete and restore -/

theorem setDeleted_of_mem (flag : Bool) (st : State) (e : Email) (hwf : WellFormed st)
    (he : e ∈ loadAllEmails st) :
    setDeleted flag e.id st = some (.success,
        { st with emails := st.emails.write (e.id ++ ".json") (e.withDeleted flag) })
      ∧ WellFormed { st with emails := st.emails.write (e.id ++ ".json") (e.withDeleted flag) }
      ∧ e.withDeleted flag ∈ loadAllEmails
          { st with emails := st.emails.write (e.id ++ ".json") (e.withDeleted flag) } := by
  have hr := hwf.read_of_loaded he
  have hp := hwf.plain_of_mem he
  refine ⟨setDeleted_found flag e.id st hwf e hr, hwf.after_write (e.withDeleted flag) hp, ?_⟩
  apply (mem_loadAllEmails _ _).mpr
  refine ⟨e.id ++ ".json", Dir.read_mem _ _ _ ?_⟩
  show (st.emails.write (e.id ++ ".json") (e.withDeleted flag)).read (e.id ++ ".json") = _
  rw [Dir.read_write, if_pos rfl]

theorem setDeleted_twice (f1 f2 : Bool) (st : State) (e : Email) (hwf : WellFormed st)
    (he : e ∈ loadAllEmails st) :
    setDeleted f2 e.id { st with emails := st.emails.write (e.id ++ ".json") (e.withDeleted f1) }
      = some (.success,
          { st with emails := st.emails.write (e.id ++ ".json") (e.withDeleted f2) }) := by
  obtain ⟨_, hwf1, he1⟩ := setDeleted_of_mem f1 st e hwf he
  have h2 := (setDeleted_of_mem f2 _ (e.withDeleted f1) hwf1 he1).1
  rw [show (e.withDeleted f1).id = e.id from rfl] at h2
  rw [h2]
  have hww := Dir.write_write st.emails (e.id ++ ".json") (e.withDeleted f1)
    ((e.withDeleted f1).withDeleted f2)
  show some (Response.success, State.mk st.users
    (Dir.write (Dir.write st.emails (e.id ++ ".json") (e.withDeleted f1)) (e.id ++ ".json")
      ((e.withDeleted f1).withDeleted f2)) st.attachments) = _
  rw [hww]
  rfl

theorem setDeleted_same (st : State) (e : Email) (hwf : WellFormed st)
    (he : e ∈ loadAllEmails st) :
    ({ st with emails := st.emails.write (e.id ++ ".json") (e.withDeleted e.deleted) } : State)
      = st := by
  have hr := hwf.read_of_loaded he
  have : e.withDeleted e.deleted = e := rfl
  rw [this, Dir.write_self _ _ _ hr]

/-- C4: on a well-formed store (every store the operations reach is one), soft-deleting an
existing, not-deleted message succeeds and marks it deleted, and restoring it then succeeds
and gives back exactly the store before the soft delete; all fields of the message and all
listings are therefore as before. -/
theorem softDelete_restore_roundtrip (st : State) (e : Email) (u1 u2 : String)
    (hwf : WellFormed st) (he : e ∈ loadAllEmails st) (hd : e.deleted = false) :
    ∃ st1, softDelete e.id u1 st = some (.success, st1)
      ∧ e.withDeleted true ∈ loadAllEmails st1
      ∧ restore e.id u2 st1 = some (.success, st) := by
  obtain ⟨h1, _, h3⟩ := setDeleted_of_mem true st e hwf he
  refine ⟨_, h1, h3, ?_⟩
  have h4 := setDeleted_twice true false st e hwf he
  have h5 := setDeleted_same st e hwf he
  rw [hd] at h5
  rw [h5] at h4
  exact h4

theorem softDelete_restore_roundtrip_witness :
    ∃ st1, softDelete sampleEmail.id "b@x" sampleState = some (.success, st1)
      ∧ sampleEmail.withDeleted true ∈ loadAllEmails st1
      ∧ restore sampleEmail.id "b@x" st1 = some (.success, sampleState) :=
  softDelete_restore_roundtrip sampleState sampleEmail "b@x" "b@x" (by decide) (by decide)
    (by decide)

/-- C10: on a well-formed store, soft-deleting an existing message twice succeeds both times
and leaves the store of the first soft delete, in which the message is marked deleted; if
the message was deleted already the store does not change. The same holds for restore with
the message marked not deleted. -/
theorem softDelete_restore_idempotent (st : State) (e : Email) (u1 u2 : String)
    (hwf : WellFormed st) (he : e ∈ loadAllEmails st) :
    (∃ st1, softDelete e.id u1 st = some (.success, st1)
      ∧ softDelete e.id u2 st1 = some (.success, st1)
      ∧ e.withDeleted true ∈ loadAllEmails st1
      ∧ (e.deleted = true → st1 = st))
    ∧ (∃ st1, restore e.id u1 st = some (.success, st1)
      ∧ restore e.id u2 st1 = some (.success, st1)
      ∧ e.withDeleted false ∈ loadAllEmails st1
      ∧ (e.deleted = false → st1 = st)) := by
  constructor
  · obtain ⟨h1, _, h3⟩ := setDeleted_of_mem true st e hwf he
    refine ⟨_, h1, setDeleted_twice true true st e hwf he, h3, ?_⟩
    intro hd
    have h5 := setDeleted_same st e hwf he
    rw [hd] at h5
    exact h5
  · obtain ⟨h1, _, h3⟩ := setDeleted_of_mem false st e hwf he
    refine ⟨_, h1, setDeleted_twice false false st e hwf he, h3, ?_⟩
    intro hd
    have h5 := setDeleted_same st e hwf he
    rw [hd] at h5
    exact h5

theorem softDelete_restore_idempotent_witness :
    (∃ st1, softDelete sampleEmail.id "b@x" sampleState = some (.success, st1)
      ∧ softDelete sampleEmail.id "a@x" st1 = some (.success, st1)
      ∧ sampleEmail.withDeleted true ∈ loadAllEmails st1
      ∧ (sampleEmail.deleted = true → st1 = sampleState))
    ∧ (∃ st1, restore sampleEmail.id "b@x" sampleState = some (.success, st1)
      ∧ restore sampleEmail.id "a@x" st1 = some (.success, st1)
      ∧ sampleEmail.withDeleted false ∈ loadAllEmails st1
      ∧ (sampleEmail.deleted = false → st1 = sampleState)) :=
  softDelete_restore_idempotent sampleState sampleEmail "b@x" "a@x" (by decide) (by decide)

/-! ## Frame of delete, restore and permanent delete -/

theorem WellFormed.name_iff {st : State} (hwf : WellFormed st) (id : String)
    (p : String × Email) (hp : p ∈ st.emails) : p.1 = id ++ ".json" ↔ p.2.id = id := by
  have h := (hwf.2 p hp).1
  constructor
  · intro h1
    rw [h] at h1
    exact json_name_injective _ _ h1
  · intro h1
    rw [h, h1]

theorem setDeleted_frame (flag : Bool) (id : String) (st : State) (hwf : WellFormed st)
    (hp : plainId id) :
    ∃ r st1, setDeleted flag id st = some (r, st1)
      ∧ st1.users = st.users ∧ st1.attachments = st.attachments
      ∧ st1.emails = st.emails.map
          (fun p => if p.2.id = id then (p.1, { p.2 with deleted := flag }) else p) := by
  cases hr : st.emails.read (id ++ ".json") with
  | none =>
    refine ⟨_, _, setDeleted_missing flag id st hp hr, rfl, rfl, ?_⟩
    have hnone := (hwf.read_none_iff id).mp hr
    symm
    calc st.emails.map (fun p => if p.2.id = id then (p.1, { p.2 with deleted := flag }) else p)
        = st.emails.map (fun p => p) := by
          apply List.map_congr_left
          intro p hmem
          have : p.2.id ≠ id :=
            hnone p.2 ((mem_loadAllEmails st p.2).mpr ⟨p.1, hmem⟩)
          simp [this]
      _ = st.emails := by simp
  | some e =>
    refine ⟨_, _, setDeleted_found flag id st hwf e hr, rfl, rfl, ?_⟩
    show st.emails.write (id ++ ".json") (e.withDeleted flag) = _
    rw [Dir.write_eq_map _ _ _ e hwf.1 hr]
    apply List.map_congr_left
    intro p hmem
    by_cases hid : p.2.id = id
    · have hname := (hwf.name_iff id p hmem).mpr hid
      have hpe : st.emails.read p.1 = some p.2 := Dir.read_of_mem _ _ _ hwf.1 hmem
      rw [hname, hr] at hpe
      have hpe2 : e = p.2 := Option.some.inj hpe
      rw [if_pos hname, if_pos hid, hpe2]
      rfl
    · have hname : ¬ p.1 = id ++ ".json" := fun h => hid ((hwf.name_iff id p hmem).mp h)
      rw [if_neg hname, if_neg hid]

theorem permanentDelete_frame (id : String) (st : State) (hwf : WellFormed st)
    (hp : plainId id) :
    ∃ r st1, permanentDelete id st = some (r, st1)
      ∧ st1.users = st.users ∧ st1.attachments = st.attachments
      ∧ st1.emails = st.emails.filter (fun p => decide (p.2.id ≠ id)) := by
  have hfilter : st.emails.filter (fun p => decide (p.1 ≠ id ++ ".json"))
      = st.emails.filter (fun p => decide (p.2.id ≠ id)) := by
    apply List.filter_congr
    intro p hmem
    have := hwf.name_iff id p hmem
    by_cases hid : p.2.id = id
    · simp [hid, this.mpr hid]
    · have hn : ¬ p.1 = id ++ ".json" := fun h => hid (this.mp h)
      simp [hid, hn]
  cases hr : st.emails.read (id ++ ".json") with
  | none =>
    refine ⟨_, _, permanentDelete_missing id st hp hr, rfl, rfl, ?_⟩
    have hnone := (hwf.read_none_iff id).mp hr
    symm
    apply List.filter_eq_self.mpr
    intro p hmem
    have : p.2.id ≠ id := hnone p.2 ((mem_loadAllEmails st p.2).mpr ⟨p.1, hmem⟩)
    simpa using this
  | some e =>
    refine ⟨_, _, permanentDelete_found id st hp e hr, rfl, rfl, ?_⟩
    show st.emails.unlink (id ++ ".json") = _
    rw [Dir.unlink_eq_filter _ _ hwf.1, hfilter]

/-- C9 as stated fails: the id `./1700000000000` is the id of no message, yet a soft delete
with it succeeds and rewrites the message whose id is `1700000000000`. -/
theorem softDelete_alias_changes_other :
    sampleEmail ∈ loadAllEmails sampleState
      ∧ sampleEmail.id ≠ "./1700000000000"
      ∧ (∀ e ∈ loadAllEmails sampleState, e.id ≠ "./1700000000000")
      ∧ softDelete "./1700000000000" "b@x" sampleState = some (.success,
          { sampleState with
            emails := [("1700000000000.json", { sampleEmail with deleted := true })] }) := by
  decide

/-- C9, amended: on a well-formed store and for an id without a path separator, soft delete
and restore change nothing but the `deleted` field of the message with that id, permanent
delete removes nothing but that message, the users and the attachment storage are unchanged,
and the result does not depend on the `user` path parameter. -/
theorem delete_restore_frame (st : State) (id u1 u2 : String) (hwf : WellFormed st)
    (hp : plainId id) :
    (∃ r st1, softDelete id u1 st = some (r, st1)
      ∧ st1.users = st.users ∧ st1.attachments = st.attachments
      ∧ st1.emails = st.emails.map
          (fun p => if p.2.id = id then (p.1, { p.2 with deleted := true }) else p))
    ∧ (∃ r st1, restore id u1 st = some (r, st1)
      ∧ st1.users = st.users ∧ st1.attachments = st.attachments
      ∧ st1.emails = st.emails.map
          (fun p => if p.2.id = id then (p.1, { p.2 with deleted := false }) else p))
    ∧ (∃ r st1, permanentDelete id st = some (r, st1)
      ∧ st1.users = st.users ∧ st1.attachments = st.attachments
      ∧ st1.emails = st.emails.filter (fun p => decide (p.2.id ≠ id)))
    ∧ softDelete id u1 st = softDelete id u2 st
    ∧ restore id u1 st = restore id u2 st :=
  ⟨setDeleted_frame true id st hwf hp, setDeleted_frame false id st hwf hp,
    permanentDelete_frame id st hwf hp, rfl, rfl⟩

theorem delete_restore_frame_witness :
    (∃ r st1, softDelete "1700000000000" "a@x" sampleState = some (r, st1)
      ∧ st1.users = sampleState.users ∧ st1.attachments = sampleState.attachments
      ∧ st1.emails = sampleState.emails.map
          (fun p => if p.2.id = "1700000000000" then (p.1, { p.2 with deleted := true })
            else p))
    ∧ (∃ r st1, restore "1700000000000" "a@x" sampleState = some (r, st1)
      ∧ st1.users = sampleState.users ∧ st1.attachments = sampleState.attachments
      ∧ st1.emails = sampleState.emails.map
          (fun p => if p.2.id = "1700000000000" then (p.1, { p.2 with deleted := false })
            else p))
    ∧ (∃ r st1, permanentDelete "1700000000000" sampleState = some (r, st1)
      ∧ st1.users = sampleState.users ∧ st1.attachments = sampleState.attachments
      ∧ st1.emails = sampleState.emails.filter
          (fun p => decide (p.2.id ≠ "1700000000000")))
    ∧ softDelete "1700000000000" "a@x" sampleState
        = softDelete "1700000000000" "b@x" sampleState
    ∧ restore "1700000000000" "a@x" sampleState
        = restore "1700000000000" "b@x" sampleState :=
  delete_restore_frame sampleState "1700000000000" "a@x" "b@x" (by decide) (by decide)

/-! ## Permanent delete -/

theorem loadAllEmails_filter_id (st st1 : State) (id : String)
    (h : st1.emails = st.emails.filter (fun p => decide (p.2.id ≠ id))) :
    loadAllEmails st1 = (loadAllEmails st).filter (fun e => decide (e.id ≠ id)) := by
  unfold loadAllEmails
  rw [h, List.filter_map]
  rfl

/-- C5 as stated fails: no message has the id `./1700000000000`, yet permanent delete with
it succeeds (no 404) and removes the message whose id is `1700000000000`. -/
theorem permanentDelete_alias_succeeds :
    (∀ e ∈ loadAllEmails sampleState, e.id ≠ "./1700000000000")
      ∧ permanentDelete "./1700000000000" sampleState
          = some (.success, { sampleState with emails := [] }) := by
  decide

/-- C5, amended: on a well-formed store and for an id without a path separator, permanent
delete answers 404 iff no message with that id is persisted; otherwise it succeeds and
removes exactly the messages with that id, whatever their `deleted` field, after which soft
delete, restore and permanent delete of that id answer 404 and change nothing, and no
listing returns a message with that id. -/
theorem permanentDelete_removes (st : State) (id u : String) (hwf : WellFormed st)
    (hp : plainId id) :
    (permanentDelete id st = some (.error 404 "Email not found", st)
      ↔ ∀ e ∈ loadAllEmails st, e.id ≠ id)
    ∧ ((∃ e ∈ loadAllEmails st, e.id = id) →
      ∃ st1, permanentDelete id st = some (.success, st1)
        ∧ loadAllEmails st1 = (loadAllEmails st).filter (fun e => decide (e.id ≠ id))
        ∧ softDelete id u st1 = some (.error 404 "Email not found", st1)
        ∧ restore id u st1 = some (.error 404 "Email not found", st1)
        ∧ permanentDelete id st1 = some (.error 404 "Email not found", st1)
        ∧ ∀ user x, x ∈ listInbox user st1 ∨ x ∈ listOutbox user st1 ∨ x ∈ listTrash user st1 →
            x.id ≠ id) := by
  constructor
  · constructor
    · intro h
      apply (hwf.read_none_iff id).mp
      cases hr : st.emails.read (id ++ ".json") with
      | none => rfl
      | some e =>
        rw [permanentDelete_found id st hp e hr] at h
        cases h
    · intro h
      exact permanentDelete_missing id st hp ((hwf.read_none_iff id).mpr h)
  · rintro ⟨e, he, hid⟩
    have hr : st.emails.read (id ++ ".json") = some e := by
      have := hwf.read_of_loaded he
      rw [hid] at this
      exact this
    have hwf1 : WellFormed { st with emails := st.emails.unlink (id ++ ".json") } :=
      hwf.after_unlink _
    obtain ⟨r, st2, h2, _, _, hem⟩ := permanentDelete_frame id st hwf hp
    have h1 := permanentDelete_found id st hp e hr
    rw [h1] at h2
    have hst : ({ st with emails := st.emails.unlink (id ++ ".json") } : State) = st2 :=
      (Prod.mk.inj (Option.some.inj h2)).2
    have hload := loadAllEmails_filter_id st st2 id hem
    rw [← hst] at hload
    have hgone : ∀ x ∈ loadAllEmails { st with emails := st.emails.unlink (id ++ ".json") },
        x.id ≠ id := by
      intro x hx
      rw [hload] at hx
      simpa using (List.mem_filter.mp hx).2
    have hnone := (hwf1.read_none_iff id).mpr hgone
    refine ⟨_, h1, hload, setDeleted_missing true id _ hp hnone,
      setDeleted_missing false id _ hp hnone, permanentDelete_missing id _ hp hnone, ?_⟩
    intro user x hx
    apply hgone
    rcases hx with hx | hx | hx
    · exact ((mem_listInbox _ user x).mp hx).1
    · exact ((mem_listOutbox _ user x).mp hx).1
    · exact ((mem_listTrash _ user x).mp hx).1

theorem permanentDelete_removes_witness :
    (permanentDelete "1700000000000" sampleState
        = some (.error 404 "Email not found", sampleState)
      ↔ ∀ e ∈ loadAllEmails sampleState, e.id ≠ "1700000000000")
    ∧ ((∃ e ∈ loadAllEmails sampleState, e.id = "1700000000000") →
      ∃ st1, permanentDelete "1700000000000" sampleState = some (.success, st1)
        ∧ loadAllEmails st1
            = (loadAllEmails sampleState).filter (fun e => decide (e.id ≠ "1700000000000"))
        ∧ softDelete "1700000000000" "b@x" st1 = some (.error 404 "Email not found", st1)
        ∧ restore "1700000000000" "b@x" st1 = some (.error 404 "Email not found", st1)
        ∧ permanentDelete "1700000000000" st1 = some (.error 404 "Email not found", st1)
        ∧ ∀ user x, x ∈ listInbox user st1 ∨ x ∈ listOutbox user st1 ∨ x ∈ listTrash user st1 →
            x.id ≠ "1700000000000") :=
  permanentDelete_removes sampleState "1700000000000" "b@x" (by decide) (by decide)

/-! ## Authentication -/

theorem find_isSome_iff (users : List User) (e : String) :
    (users.find? (fun u => some u.email == some e)).isSome = true
      ↔ e ∈ users.map User.email := by
  rw [List.find?_isSome]
  simp only [beq_iff_eq, Option.some.injEq, List.mem_map]

theorem register_new (st : State) (e p : String) (he : e ≠ "") (hp : p ≠ "")
    (hnew : e ∉ st.users.map User.email) :
    register (some e) (some p) st = (.success, { st with users := st.users ++ [User.mk e p] }) := by
  have h1 : (st.users.find? (fun u => some u.email == some e)).isSome = false := by
    rw [Bool.eq_false_iff]
    intro h
    exact hnew ((find_isSome_iff _ _).mp h)
  have hm : (missing (some e) || missing (some p)) = false := by simp [missing, he, hp]
  unfold register
  simp only [hm, loadUsers, h1, Bool.false_eq_true, if_false]
  rfl

theorem register_taken (st : State) (e p : String) (he : e ≠ "") (hp : p ≠ "")
    (hold : e ∈ st.users.map User.email) :
    register (some e) (some p) st = (.error 400 "Email already registered", st) := by
  have h1 := (find_isSome_iff st.users e).mpr hold
  have hm : (missing (some e) || missing (some p)) = false := by simp [missing, he, hp]
  unfold register
  simp only [hm, loadUsers, h1, Bool.false_eq_true, if_false, if_true]

theorem login_response (st : State) (email password : Option String) :
    (login email password st).1 = .loginSuccess email
      ∨ (login email password st).1 = .error 401 "Invalid email or password" := by
  unfold login
  simp only []
  split
  · right; rfl
  · left; rfl

theorem login_succeeds_iff_aux (st : State) (email password : Option String) :
    (login email password st).1 = .loginSuccess email
      ↔ ∃ u ∈ st.users, some u.email = email ∧ some u.password = password := by
  unfold login
  simp only [loadUsers]
  cases hf : st.users.find?
      (fun u => some u.email == email && some u.password == password) with
  | none =>
    simp only [false_iff, reduceCtorEq]
    rintro ⟨u, hu, h1, h2⟩
    have := List.find?_eq_none.mp hf u hu
    simp [h1, h2] at this
  | some u =>
    simp only [true_iff]
    have hm := List.mem_of_find?_eq_some hf
    have hp := List.find?_some hf
    simp only [Bool.and_eq_true, beq_iff_eq] at hp
    exact ⟨u, hm, hp.1, hp.2⟩

/-- C6: login answers with success and the submitted email iff some stored user record has
exactly the submitted email and the submitted password; otherwise it answers 401; and it
leaves the state as it was. -/
theorem login_succeeds_iff (st : State) (email password : Option String) :
    ((login email password st).1 = .loginSuccess email
      ↔ ∃ u ∈ st.users, some u.email = email ∧ some u.password = password)
    ∧ ((login email password st).1 = .error 401 "Invalid email or password"
      ↔ ¬ ∃ u ∈ st.users, some u.email = email ∧ some u.password = password)
    ∧ (login email password st).2 = st := by
  have key := login_succeeds_iff_aux st email password
  refine ⟨key, ?_, ?_⟩
  · rw [← key]
    constructor
    · intro h1 h2
      rw [h1] at h2
      cases h2
    · intro h1
      rcases login_response st email password with h | h
      · exact absurd h h1
      · exact h
  · unfold login
    simp only []
    split <;> rfl

/-- C7: on a store whose emails are pairwise distinct, registering with both fields supplied
and non-empty appends exactly the record of the request and keeps the emails distinct when
the email is new, and answers 400 without changing the store when the email is taken; after
a successful registration a second one with the same email answers 400 and changes nothing,
and login accepts the first password and no other for that email. -/
theorem register_keeps_emails_unique (st : State) (e p : String) (he : e ≠ "") (hp : p ≠ "")
    (hnd : (st.users.map User.email).Nodup) :
    (e ∉ st.users.map User.email →
      register (some e) (some p) st = (.success, { st with users := st.users ++ [User.mk e p] })
      ∧ ((st.users ++ [User.mk e p]).map User.email).Nodup
      ∧ ∀ p2 : String, p2 ≠ "" →
          register (some e) (some p2) { st with users := st.users ++ [User.mk e p] }
            = (.error 400 "Email already registered",
                { st with users := st.users ++ [User.mk e p] })
          ∧ (login (some e) (some p) { st with users := st.users ++ [User.mk e p] }).1
              = .loginSuccess (some e)
          ∧ (p2 ≠ p →
              (login (some e) (some p2) { st with users := st.users ++ [User.mk e p] }).1
                = .error 401 "Invalid email or password"))
    ∧ (e ∈ st.users.map User.email →
      register (some e) (some p) st = (.error 400 "Email already registered", st)) := by
  refine ⟨?_, register_taken st e p he hp⟩
  intro hnew
  refine ⟨register_new st e p he hp hnew, ?_, ?_⟩
  · rw [List.map_append]
    refine List.Nodup.append hnd (by simp) ?_
    intro x hx hx2
    have : x = e := by simpa using hx2
    exact hnew (this ▸ hx)
  · intro p2 hp2
    refine ⟨?_, ?_, ?_⟩
    · apply register_taken _ e p2 he hp2
      simp
    · apply (login_succeeds_iff_aux _ _ _).mpr
      exact ⟨User.mk e p, by simp, rfl, rfl⟩
    · intro hne
      rcases login_response { st with users := st.users ++ [User.mk e p] } (some e) (some p2)
        with h | h
      · exfalso
        obtain ⟨u, hu, h1, h2⟩ := (login_succeeds_iff_aux _ _ _).mp h
        have hu2 : u ∈ st.users ++ [User.mk e p] := hu
        rcases List.mem_append.mp hu2 with h3 | h3
        · apply hnew
          have h1b : u.email = e := Option.some.inj h1
          exact List.mem_map.mpr ⟨u, h3, h1b⟩
        · have : u = User.mk e p := by simpa using h3
          subst this
          exact hne (Option.some.inj h2).symm
      · exact h

theorem register_keeps_emails_unique_witness :
    ("b@x" ∉ sampleState.users.map User.email →
      register (some "b@x") (some "pw1") sampleState
        = (.success, { sampleState with users := sampleState.users ++ [User.mk "b@x" "pw1"] })
      ∧ ((sampleState.users ++ [User.mk "b@x" "pw1"]).map User.email).Nodup
      ∧ ∀ p2 : String, p2 ≠ "" →
          register (some "b@x") (some p2)
              { sampleState with users := sampleState.users ++ [User.mk "b@x" "pw1"] }
            = (.error 400 "Email already registered",
                { sampleState with users := sampleState.users ++ [User.mk "b@x" "pw1"] })
          ∧ (login (some "b@x") (some "pw1")
                { sampleState with users := sampleState.users ++ [User.mk "b@x" "pw1"] }).1
              = .loginSuccess (some "b@x")
          ∧ (p2 ≠ "pw1" →
              (login (some "b@x") (some p2)
                  { sampleState with users := sampleState.users ++ [User.mk "b@x" "pw1"] }).1
                = .error 401 "Invalid email or password"))
    ∧ ("b@x" ∈ sampleState.users.map User.email →
      register (some "b@x") (some "pw1") sampleState
        = (.error 400 "Email already registered", sampleState)) :=
  register_keeps_emails_unique sampleState "b@x" "pw1" (by decide) (by decide) (by decide)

/-! ## Sending -/

theorem upload_users_emails (files : List Upload) : ∀ st : State,
    (upload files st).users = st.users ∧ (upload files st).emails = st.emails := by
  induction files with
  | nil => intro st; exact ⟨rfl, rfl⟩
  | cons f rest ih =>
    intro st
    have h := ih { st with attachments := st.attachments.write (storedName f) f.content }
    exact h

theorem Dir.mem_names_write {α : Type} (d : Dir α) (k k2 : String) (v : α) :
    k2 ∈ (d.write k v).names ↔ k = k2 ∨ k2 ∈ d.names := by
  have h1 := Dir.read_eq_none (d.write k v) k2
  have h2 := Dir.read_eq_none d k2
  rw [Dir.read_write] at h1
  by_cases hk : k = k2
  · rw [if_pos hk] at h1
    simp only [reduceCtorEq, false_iff, not_not] at h1
    exact ⟨fun _ => Or.inl hk, fun _ => h1⟩
  · rw [if_neg hk] at h1
    constructor
    · intro h
      right
      by_contra hc
      exact (h1.mp (h2.mpr hc)) h
    · rintro (h | h)
      · exact absurd h hk
      · by_contra hc
        exact (h2.mp (h1.mpr hc)) h

theorem upload_names (files : List Upload) : ∀ st : State,
    (∀ k ∈ st.attachments.names, k ∈ (upload files st).attachments.names)
      ∧ ∀ f ∈ files, storedName f ∈ (upload files st).attachments.names := by
  induction files with
  | nil => intro st; exact ⟨fun _ h => h, fun _ h => by cases h⟩
  | cons f rest ih =>
    intro st
    have h := ih { st with attachments := st.attachments.write (storedName f) f.content }
    constructor
    · intro k hk
      exact h.1 k ((Dir.mem_names_write _ _ _ _).mpr (Or.inr hk))
    · intro g hg
      rcases List.mem_cons.mp hg with rfl | hg
      · exact h.1 _ ((Dir.mem_names_write _ _ _ _).mpr (Or.inl rfl))
      · exact h.2 g hg

theorem complete_iff (req : SendRequest) :
    req.complete ↔
      (missing req.from_ || missing req.to_ || missing req.subject || missing req.body)
        = false := by
  unfold SendRequest.complete present
  simp only [Bool.or_eq_false_iff, and_assoc]

theorem missing_iff (field : Option String) :
    missing field = true ↔ field = none ∨ field = some "" := by
  cases field with
  | none => simp [missing]
  | some s => simp [missing]

theorem read_upload (files : List Upload) : ∀ (st : State) (k : String),
    (upload files st).attachments.read k
      = match files.reverse.find? (fun f => storedName f == k) with
        | some f => some f.content
        | none => st.attachments.read k := by
  induction files with
  | nil => intro st k; rfl
  | cons f rest ih =>
    intro st k
    have h := ih { st with attachments := st.attachments.write (storedName f) f.content } k
    show (upload rest { st with attachments := st.attachments.write (storedName f) f.content }
      ).attachments.read k = _
    rw [h, List.reverse_cons, List.find?_append]
    cases hfind : rest.reverse.find? (fun f => storedName f == k) with
    | some g => rfl
    | none =>
      show (Dir.write st.attachments (storedName f) f.content).read k = _
      rw [Dir.read_write]
      by_cases hk : storedName f = k
      · simp [hk]
      · simp [hk]

theorem uploadArray_users_emails (files : Option (List Upload)) (st : State) :
    (uploadArray files st).users = st.users ∧ (uploadArray files st).emails = st.emails := by
  cases files with
  | none => exact ⟨rfl, rfl⟩
  | some parts => exact upload_users_emails parts st

theorem read_uploadArray (files : Option (List Upload)) (st : State) (k : String) :
    (uploadArray files st).attachments.read k
      = match (files.getD []).reverse.find? (fun f => storedName f == k) with
        | some f => some f.content
        | none => st.attachments.read k := by
  cases files with
  | none => rfl
  | some parts => exact read_upload parts st k

theorem send_complete (req : SendRequest) (files : List Upload) (st : State)
    (h : req.complete) (hf : req.files = some files) :
    send req st = some (.success,
      { upload files st with
        emails := (upload files st).emails.write (toString req.now ++ ".json")
          (assemble req files) }) := by
  have hm := (complete_iff req).mp h
  unfold send
  simp only [hm, Bool.false_eq_true, if_false, hf]
  rw [saveEmail_plain (assemble req files) _ (toString_nat_no_slash req.now)]
  rfl

theorem send_complete_not_multipart (req : SendRequest) (st : State)
    (h : req.complete) (hf : req.files = none) :
    send req st = some (internalError, st) := by
  have hm := (complete_iff req).mp h
  unfold send
  simp only [hm, Bool.false_eq_true, if_false, hf]
  rfl

theorem send_incomplete (req : SendRequest) (st : State) (h : ¬ req.complete) :
    send req st = some (.error 400 "Missing fields", uploadArray req.files st) := by
  have hm : (missing req.from_ || missing req.to_ || missing req.subject || missing req.body)
      = true := by
    rw [← Bool.not_eq_false]
    exact fun hc => h ((complete_iff req).mpr hc)
  unfold send
  simp only [hm, if_true]

theorem send_result (req : SendRequest) (st : State) :
    send req st
      = (if req.complete then
          match req.files with
          | some files =>
            some (.success,
              { upload files st with
                emails := (upload files st).emails.write (toString req.now ++ ".json")
                  (assemble req files) })
          | none => some (internalError, st)
        else some (.error 400 "Missing fields", uploadArray req.files st)) := by
  by_cases h : req.complete
  · rw [if_pos h]
    cases hf : req.files with
    | none => exact send_complete_not_multipart req st h hf
    | some files => exact send_complete req files st h hf
  · rw [if_neg h]; exact send_incomplete req st h

theorem send_json_throws :
    sampleSendJson.complete ∧ send sampleSendJson sampleState = some (internalError, sampleState) := by
  decide

/-- C8 as stated fails: a send without `from` that carries a file part answers 400, and the
attachment storage then holds the file, so the persisted state is not the state before. -/
theorem send_invalid_stores_upload :
    send sampleSendInvalid State.initial
        = some (.error 400 "Missing fields",
            { State.initial with attachments := [("5-f.txt", "data")] })
      ∧ ({ State.initial with attachments := [("5-f.txt", "data")] } : State)
          ≠ State.initial := by
  decide

/-- C8, amended: a send in which one of `from`, `to`, `subject`, `body` is absent or empty
answers 400 and leaves the message records and the users as they were, while the upload
middleware has already written every file part of the request to the attachment storage:
each stored name holds the content of the last part stored under it and every other
attachment file is as before (without file parts the state is unchanged). Conversely a send
with all four fields present never answers 400: with a multipart body it succeeds and
persists the assembled record, with any other body the handler throws and the state is
unchanged. -/
theorem send_validation (req : SendRequest) (st : State) :
    (¬ req.complete ↔
      (req.from_ = none ∨ req.from_ = some "") ∨ (req.to_ = none ∨ req.to_ = some "")
        ∨ (req.subject = none ∨ req.subject = some "")
        ∨ (req.body = none ∨ req.body = some ""))
    ∧ send req st
        = (if req.complete then
            match req.files with
            | some files =>
              some (.success,
                { upload files st with
                  emails := (upload files st).emails.write (toString req.now ++ ".json")
                    (assemble req files) })
            | none => some (internalError, st)
          else some (.error 400 "Missing fields", uploadArray req.files st))
    ∧ (∀ message, (send req st).map Prod.fst = some (.error 400 message)
        ↔ ¬ req.complete ∧ message = "Missing fields")
    ∧ (uploadArray req.files st).users = st.users
    ∧ (uploadArray req.files st).emails = st.emails
    ∧ (∀ name, (uploadArray req.files st).attachments.read name
        = match (req.files.getD []).reverse.find? (fun f => storedName f == name) with
          | some f => some f.content
          | none => st.attachments.read name)
    ∧ (req.files = none ∨ req.files = some [] → uploadArray req.files st = st) := by
  refine ⟨?_, send_result req st, ?_, (uploadArray_users_emails _ st).1,
    (uploadArray_users_emails _ st).2, read_uploadArray _ st, ?_⟩
  · rw [complete_iff, Bool.not_eq_false]
    simp only [Bool.or_eq_true, missing_iff, or_assoc]
  · intro message
    rw [send_result]
    by_cases h : req.complete
    · rw [if_pos h]
      cases req.files with
      | none =>
        constructor
        · intro h2
          have h3 : internalError = Response.error 400 message := Option.some.inj h2
          have h4 : (500 : Nat) = 400 := by
            unfold internalError at h3
            injection h3
          omega
        · intro h2; exact absurd h h2.1
      | some files =>
        constructor
        · intro h2
          have h3 : Response.success = Response.error 400 message := Option.some.inj h2
          cases h3
        · intro h2; exact absurd h h2.1
    · rw [if_neg h]
      constructor
      · intro h2
        have h3 : Response.error 400 "Missing fields" = Response.error 400 message :=
          Option.some.inj h2
        injection h3 with _ h4
        exact ⟨h, h4.symm⟩
      · rintro ⟨_, rfl⟩; rfl
  · rintro (h | h) <;> rw [h] <;> rfl

/-! ## Request sequences -/

theorem Dir.read_unlink_ne {α : Type} (d : Dir α) (k k2 : String) (h : k ≠ k2) :
    (d.unlink k).read k2 = d.read k2 := by
  induction d with
  | nil => rfl
  | cons p rest ih =>
    obtain ⟨k0, v0⟩ := p
    unfold Dir.unlink
    by_cases hk : k0 = k
    · rw [if_pos hk]
      have : k0 ≠ k2 := fun e => h (hk.symm.trans e)
      show Dir.read rest k2 = if k0 = k2 then some v0 else Dir.read rest k2
      rw [if_neg this]
    · rw [if_neg hk]
      show (if k0 = k2 then some v0 else Dir.read (Dir.unlink rest k) k2)
        = if k0 = k2 then some v0 else Dir.read rest k2
      rw [ih]

theorem WellFormed.of_emails_eq {st st1 : State} (hwf : WellFormed st)
    (h : st1.emails = st.emails) : WellFormed st1 := by
  unfold WellFormed at *
  rw [h]
  exact hwf

theorem send_wellFormed (req : SendRequest) (st st1 : State) (r : Response)
    (hwf : WellFormed st) (h : send req st = some (r, st1)) : WellFormed st1 := by
  by_cases hc : req.complete
  · cases hf : req.files with
    | none =>
      rw [send_complete_not_multipart req st hc hf] at h
      have := (Prod.mk.inj (Option.some.inj h)).2
      rw [← this]
      exact hwf
    | some files =>
      have hup : WellFormed (upload files st) :=
        hwf.of_emails_eq (upload_users_emails _ st).2
      rw [send_complete req files st hc hf] at h
      have := (Prod.mk.inj (Option.some.inj h)).2
      rw [← this]
      exact hup.after_write (assemble req files) (toString_nat_no_slash req.now)
  · rw [send_incomplete req st hc] at h
    have := (Prod.mk.inj (Option.some.inj h)).2
    rw [← this]
    exact hwf.of_emails_eq (uploadArray_users_emails _ st).2

theorem setDeleted_wellFormed (flag : Bool) (id : String) (st st1 : State) (r : Response)
    (hwf : WellFormed st) (h : setDeleted flag id st = some (r, st1)) : WellFormed st1 := by
  unfold setDeleted at h
  split at h
  · cases h
  · cases h; exact hwf
  · rename_i name _
    split at h
    · cases h; exact hwf
    · rename_i email hread
      have hp : plainId (email.withDeleted flag).id := (hwf.read_name hread).2
      rw [saveEmail_plain _ _ hp] at h
      cases h
      exact hwf.after_write (email.withDeleted flag) hp
  · cases h; exact hwf

theorem permanentDelete_wellFormed (id : String) (st st1 : State) (r : Response)
    (hwf : WellFormed st) (h : permanentDelete id st = some (r, st1)) : WellFormed st1 := by
  unfold permanentDelete at h
  split at h
  · cases h
  · cases h; exact hwf
  · split at h
    · cases h; exact hwf
    · cases h; exact hwf.after_unlink _
  · cases h; exact hwf

theorem step_wellFormed (q : Request) (st st1 : State) (hwf : WellFormed st)
    (h : step q st = some st1) : WellFormed st1 := by
  cases q with
  | send req =>
    obtain ⟨p, hp, rfl⟩ := Option.map_eq_some'.mp h
    exact send_wellFormed req st p.2 p.1 hwf hp
  | softDelete id user =>
    obtain ⟨p, hp, rfl⟩ := Option.map_eq_some'.mp h
    exact setDeleted_wellFormed true id st p.2 p.1 hwf hp
  | restore id user =>
    obtain ⟨p, hp, rfl⟩ := Option.map_eq_some'.mp h
    exact setDeleted_wellFormed false id st p.2 p.1 hwf hp
  | permanentDelete id =>
    obtain ⟨p, hp, rfl⟩ := Option.map_eq_some'.mp h
    exact permanentDelete_wellFormed id st p.2 p.1 hwf hp

theorem run_wellFormed (qs : List Request) : ∀ (st st1 : State), WellFormed st →
    run qs st = some st1 → WellFormed st1 := by
  induction qs with
  | nil =>
    intro st st1 hwf h
    cases h
    exact hwf
  | cons q rest ih =>
    intro st st1 hwf h
    unfold run at h
    obtain ⟨st2, h2, h3⟩ := Option.bind_eq_some.mp h
    exact ih st2 st1 (step_wellFormed q st st2 hwf h2) h3

theorem step_send (req : SendRequest) (st : State) :
    step (.send req) st = (send req st).map Prod.snd := rfl

theorem step_softDelete (id user : String) (st : State) :
    step (.softDelete id user) st = (setDeleted true id st).map Prod.snd := rfl

theorem step_restore (id user : String) (st : State) :
    step (.restore id user) st = (setDeleted false id st).map Prod.snd := rfl

theorem step_permanentDelete (id : String) (st : State) :
    step (.permanentDelete id) st = (permanentDelete id st).map Prod.snd := rfl

theorem step_plain_total (q : Request) (st : State) (hwf : WellFormed st) (hq : q.plain) :
    ∃ st1, step q st = some st1 := by
  cases q with
  | send req =>
    by_cases hc : req.complete
    · cases hf : req.files with
      | none => exact ⟨_, by rw [step_send, send_complete_not_multipart req st hc hf]; rfl⟩
      | some files => exact ⟨_, by rw [step_send, send_complete req files st hc hf]; rfl⟩
    · exact ⟨_, by rw [step_send, send_incomplete req st hc]; rfl⟩
  | softDelete id user =>
    obtain ⟨r, st1, h, _⟩ := setDeleted_frame true id st hwf hq
    exact ⟨st1, by rw [step_softDelete, h]; rfl⟩
  | restore id user =>
    obtain ⟨r, st1, h, _⟩ := setDeleted_frame false id st hwf hq
    exact ⟨st1, by rw [step_restore, h]; rfl⟩
  | permanentDelete id =>
    obtain ⟨r, st1, h, _⟩ := permanentDelete_frame id st hwf hq
    exact ⟨st1, by rw [step_permanentDelete, h]; rfl⟩

theorem run_plain_total (qs : List Request) : ∀ st : State, WellFormed st →
    (∀ q ∈ qs, q.plain) → ∃ st1, run qs st = some st1 ∧ WellFormed st1 := by
  induction qs with
  | nil => intro st hwf _; exact ⟨st, rfl, hwf⟩
  | cons q rest ih =>
    intro st hwf hq
    obtain ⟨st2, h2⟩ := step_plain_total q st hwf (hq q (List.mem_cons_self _ _))
    obtain ⟨st1, h1, hwf1⟩ := ih st2 (step_wellFormed q st st2 hwf h2)
      (fun x hx => hq x (List.mem_cons_of_mem _ hx))
    refine ⟨st1, ?_, hwf1⟩
    unfold run
    rw [h2]
    exact h1

theorem run_append (a b : List Request) : ∀ st : State,
    run (a ++ b) st = (run a st).bind (run b) := by
  induction a with
  | nil => intro st; rfl
  | cons q rest ih =>
    intro st
    show (step q st).bind (run (rest ++ b)) = ((step q st).bind (run rest)).bind (run b)
    cases step q st with
    | none => rfl
    | some st2 => exact ih st2

/-! ## A sent message stays visible -/

theorem json_name_ne (m n : Nat) (h : m ≠ n) :
    toString m ++ ".json" ≠ toString n ++ ".json" :=
  fun e => h (toString_nat_injective m n (json_name_injective _ _ e))

theorem kept_after_send (req : SendRequest) (files : List Upload) (st : State)
    (hwf : WellFormed st) (hc : req.complete) (hf : req.files = some files) :
    ∃ st1, step (.send req) st = some st1 ∧ Kept req files st1 := by
  refine ⟨_, by rw [step_send, send_complete req files st hc hf]; rfl, ?_,
    assemble req files, ?_, rfl⟩
  · exact (hwf.of_emails_eq (upload_users_emails _ st).2).after_write (assemble req files)
      (toString_nat_no_slash req.now)
  · show (Dir.write (upload files st).emails (toString req.now ++ ".json")
      (assemble req files)).read (toString req.now ++ ".json") = _
    rw [Dir.read_write, if_pos rfl]

theorem step_kept (req : SendRequest) (files : List Upload) (q : Request) (st : State)
    (hk : Kept req files st)
    (hq : q.plain) (hdel : q ≠ .permanentDelete (toString req.now))
    (hfresh : ∀ r2, q = .send r2 → r2.complete → r2.files ≠ none → r2.now ≠ req.now) :
    ∃ st1, step q st = some st1 ∧ Kept req files st1 := by
  obtain ⟨hwf, e, hread, hsame⟩ := hk
  obtain ⟨st1, hstep⟩ := step_plain_total q st hwf hq
  refine ⟨st1, hstep, step_wellFormed q st st1 hwf hstep, ?_⟩
  cases q with
  | send r2 =>
    rw [step_send] at hstep
    by_cases hc : r2.complete
    · cases hf : r2.files with
      | none =>
        rw [send_complete_not_multipart r2 st hc hf] at hstep
        have hst : st1 = st := (Option.some.inj hstep).symm
        rw [hst]
        exact ⟨e, hread, hsame⟩
      | some parts =>
        rw [send_complete r2 parts st hc hf] at hstep
        have hst : st1 = _ := (Option.some.inj hstep).symm
        have hne : r2.files ≠ none := by rw [hf]; exact Option.some_ne_none parts
        refine ⟨e, ?_, hsame⟩
        rw [hst]
        show (Dir.write (upload parts st).emails (toString r2.now ++ ".json")
          (assemble r2 parts)).read (toString req.now ++ ".json") = _
        rw [Dir.read_write, if_neg (json_name_ne _ _ (hfresh r2 rfl hc hne)),
          (upload_users_emails _ st).2]
        exact hread
    · rw [send_incomplete r2 st hc] at hstep
      have hst : st1 = _ := (Option.some.inj hstep).symm
      refine ⟨e, ?_, hsame⟩
      rw [hst, (uploadArray_users_emails _ st).2]
      exact hread
  | softDelete id user =>
    rw [step_softDelete] at hstep
    cases hr : st.emails.read (id ++ ".json") with
    | none =>
      rw [setDeleted_missing true id st hq hr] at hstep
      have hst : st1 = st := (Option.some.inj hstep).symm
      rw [hst]
      exact ⟨e, hread, hsame⟩
    | some e1 =>
      rw [setDeleted_found true id st hwf e1 hr] at hstep
      have hst : st1 = _ := (Option.some.inj hstep).symm
      rw [hst]
      show ∃ e2, (Dir.write st.emails (id ++ ".json") (e1.withDeleted true)).read
        (toString req.now ++ ".json") = some e2 ∧ _
      rw [Dir.read_write]
      by_cases hn : id ++ ".json" = toString req.now ++ ".json"
      · rw [if_pos hn]
        rw [hn, hread] at hr
        have he : e = e1 := Option.some.inj hr
        refine ⟨_, rfl, ?_⟩
        rw [← he, ← hsame]
        rfl
      · rw [if_neg hn]
        exact ⟨e, hread, hsame⟩
  | restore id user =>
    rw [step_restore] at hstep
    cases hr : st.emails.read (id ++ ".json") with
    | none =>
      rw [setDeleted_missing false id st hq hr] at hstep
      have hst : st1 = st := (Option.some.inj hstep).symm
      rw [hst]
      exact ⟨e, hread, hsame⟩
    | some e1 =>
      rw [setDeleted_found false id st hwf e1 hr] at hstep
      have hst : st1 = _ := (Option.some.inj hstep).symm
      rw [hst]
      show ∃ e2, (Dir.write st.emails (id ++ ".json") (e1.withDeleted false)).read
        (toString req.now ++ ".json") = some e2 ∧ _
      rw [Dir.read_write]
      by_cases hn : id ++ ".json" = toString req.now ++ ".json"
      · rw [if_pos hn]
        rw [hn, hread] at hr
        have he : e = e1 := Option.some.inj hr
        refine ⟨_, rfl, ?_⟩
        rw [← he, ← hsame]
        rfl
      · rw [if_neg hn]
        exact ⟨e, hread, hsame⟩
  | permanentDelete id =>
    rw [step_permanentDelete] at hstep
    have hid : id ≠ toString req.now := fun h => hdel (by rw [h])
    have hn : id ++ ".json" ≠ toString req.now ++ ".json" :=
      fun h => hid (json_name_injective _ _ h)
    cases hr : st.emails.read (id ++ ".json") with
    | none =>
      rw [permanentDelete_missing id st hq hr] at hstep
      have hst : st1 = st := (Option.some.inj hstep).symm
      rw [hst]
      exact ⟨e, hread, hsame⟩
    | some e1 =>
      rw [permanentDelete_found id st hq e1 hr] at hstep
      have hst : st1 = _ := (Option.some.inj hstep).symm
      rw [hst]
      show ∃ e2, (Dir.unlink st.emails (id ++ ".json")).read
        (toString req.now ++ ".json") = some e2 ∧ _
      rw [Dir.read_unlink_ne _ _ _ hn]
      exact ⟨e, hread, hsame⟩

theorem run_kept (req : SendRequest) (files : List Upload) (post : List Request) :
    ∀ st : State, Kept req files st →
    (∀ q ∈ post, q.plain) → Request.permanentDelete (toString req.now) ∉ post →
    (∀ r2, Request.send r2 ∈ post → r2.complete → r2.files ≠ none → r2.now ≠ req.now) →
    ∃ st1, run post st = some st1 ∧ Kept req files st1 := by
  induction post with
  | nil => intro st hk _ _ _; exact ⟨st, rfl, hk⟩
  | cons q rest ih =>
    intro st hk hplain hdel hfresh
    obtain ⟨st2, h2, hk2⟩ := step_kept req files q st hk (hplain q (List.mem_cons_self _ _))
      (fun h => hdel (h ▸ List.mem_cons_self _ _))
      (fun r2 h hc hm => hfresh r2 (h ▸ List.mem_cons_self _ _) hc hm)
    obtain ⟨st1, h1, hk1⟩ := ih st2 hk2 (fun x hx => hplain x (List.mem_cons_of_mem _ hx))
      (fun h => hdel (List.mem_cons_of_mem _ h))
      (fun r2 h hc hm => hfresh r2 (List.mem_cons_of_mem _ h) hc hm)
    refine ⟨st1, ?_, hk1⟩
    unfold run
    rw [h2]
    exact h1

theorem present_getD (field : Option String) (h : present field) :
    some (field.getD "") = field := by
  cases field with
  | none => simp [present, missing] at h
  | some s => rfl

theorem send_fresh_appends (req : SendRequest) (files : List Upload) (st : State)
    (hwf : WellFormed st) (hc : req.complete) (hf : req.files = some files)
    (hnew : ∀ e ∈ loadAllEmails st, e.id ≠ toString req.now) :
    ∃ st1, send req st = some (.success, st1)
      ∧ (loadAllEmails st1).Perm (assemble req files :: loadAllEmails st) := by
  refine ⟨_, send_complete req files st hc hf, ?_⟩
  have hnone := (hwf.read_none_iff (toString req.now)).mpr hnew
  show ((Dir.write (upload files st).emails (toString req.now ++ ".json")
    (assemble req files)).map Prod.snd).Perm _
  rw [(upload_users_emails _ st).2, Dir.write_new _ _ _ hnone, List.map_append]
  exact List.perm_append_comm

/-- C3 as stated fails: two complete multipart sends served at the same reading of the clock get the
same id; the second overwrites the file of the first, so that after both the store holds one
record and the first message is in no inbox or outbox although it was never deleted. -/
theorem send_same_instant_replaces :
    sampleSend.complete ∧ sampleSendAgain.complete
      ∧ sampleSend.files = some [] ∧ sampleSendAgain.files = some []
      ∧ run [.send sampleSend, .send sampleSendAgain] State.initial
          = some ⟨[], [("5.json", assemble sampleSendAgain [])], []⟩
      ∧ listInbox "b@x" ⟨[], [("5.json", assemble sampleSendAgain [])], []⟩ = []
      ∧ listOutbox "a@x" ⟨[], [("5.json", assemble sampleSendAgain [])], []⟩ = []
      ∧ listTrash "b@x" ⟨[], [("5.json", assemble sampleSendAgain [])], []⟩ = [] := by
  decide

/-- C3, amended: take any sequence of requests from the initial state whose path ids have no
path separator, and in it a successful send (all four fields present, multipart body). If no
later request permanently deletes the id of that send and no later successful send is served
at the same reading of the clock, then the
sequence runs to a state that still holds the record of the send, with the `from`, `to`,
`subject` and `body` of the request and `read = false`; while its `deleted` field is false
the inbox of `to` and the outbox of `from` contain it, and the trash of `to` and of `from`
contain it iff its `deleted` field is true. A successful send whose id is not yet in a
well-formed store adds exactly its one record and alters no other. -/
theorem sent_email_stays_visible (pre post : List Request) (req : SendRequest)
    (files : List Upload) (hc : req.complete) (hf : req.files = some files)
    (hpre : ∀ q ∈ pre, q.plain) (hpost : ∀ q ∈ post, q.plain)
    (hkeep : Request.permanentDelete (toString req.now) ∉ post)
    (hfresh : ∀ r2, Request.send r2 ∈ post → r2.complete → r2.files ≠ none →
      r2.now ≠ req.now) :
    (∃ st e, run (pre ++ Request.send req :: post) State.initial = some st
      ∧ e ∈ loadAllEmails st
      ∧ e.id = toString req.now
      ∧ some e.from_ = req.from_ ∧ some e.to_ = req.to_
      ∧ some e.subject = req.subject ∧ some e.body = req.body
      ∧ e.read = false
      ∧ (e.deleted = false → e ∈ listInbox e.to_ st ∧ e ∈ listOutbox e.from_ st)
      ∧ (e ∈ listTrash e.to_ st ↔ e.deleted = true)
      ∧ (e ∈ listTrash e.from_ st ↔ e.deleted = true))
    ∧ ∀ st0, WellFormed st0 → (∀ e ∈ loadAllEmails st0, e.id ≠ toString req.now) →
        ∃ st1, send req st0 = some (.success, st1)
          ∧ (loadAllEmails st1).Perm (assemble req files :: loadAllEmails st0) := by
  refine ⟨?_, fun st0 hwf0 hnew => send_fresh_appends req files st0 hwf0 hc hf hnew⟩
  obtain ⟨sta, hruna, hwfa⟩ := run_plain_total pre State.initial wellFormed_initial hpre
  obtain ⟨stb, hstepb, hkb⟩ := kept_after_send req files sta hwfa hc hf
  obtain ⟨st, hrun, hwf, e, hread, hsame⟩ :=
    run_kept req files post stb hkb hpost hkeep hfresh
  have hmem : e ∈ loadAllEmails st :=
    (mem_loadAllEmails st e).mpr ⟨_, Dir.read_mem _ _ _ hread⟩
  have hid : e.id = toString req.now := congrArg Email.id hsame
  have hfrom : e.from_ = req.from_.getD "" := congrArg Email.from_ hsame
  have hto : e.to_ = req.to_.getD "" := congrArg Email.to_ hsame
  have hsubject : e.subject = req.subject.getD "" := congrArg Email.subject hsame
  have hbody : e.body = req.body.getD "" := congrArg Email.body hsame
  have hreadflag : e.read = false := congrArg Email.read hsame
  refine ⟨st, e, ?_, hmem, hid, ?_, ?_, ?_, ?_, hreadflag, ?_, ?_, ?_⟩
  · rw [run_append, hruna]
    show (step (.send req) sta).bind (run post) = _
    rw [hstepb]
    exact hrun
  · rw [hfrom]; exact present_getD _ hc.1
  · rw [hto]; exact present_getD _ hc.2.1
  · rw [hsubject]; exact present_getD _ hc.2.2.1
  · rw [hbody]; exact present_getD _ hc.2.2.2
  · intro hd
    exact ⟨(mem_listInbox st _ e).mpr ⟨hmem, rfl, hd⟩,
      (mem_listOutbox st _ e).mpr ⟨hmem, rfl, hd⟩⟩
  · rw [mem_listTrash]
    exact ⟨fun h => h.2.1, fun h => ⟨hmem, h, Or.inl rfl⟩⟩
  · rw [mem_listTrash]
    exact ⟨fun h => h.2.1, fun h => ⟨hmem, h, Or.inr rfl⟩⟩

theorem sent_email_stays_visible_witness :
    (∃ st e, run ([Request.send sampleSendInvalid] ++ Request.send sampleSend :: sampleLater)
          State.initial = some st
      ∧ e ∈ loadAllEmails st
      ∧ e.id = toString sampleSend.now
      ∧ some e.from_ = sampleSend.from_ ∧ some e.to_ = sampleSend.to_
      ∧ some e.subject = sampleSend.subject ∧ some e.body = sampleSend.body
      ∧ e.read = false
      ∧ (e.deleted = false → e ∈ listInbox e.to_ st ∧ e ∈ listOutbox e.from_ st)
      ∧ (e ∈ listTrash e.to_ st ↔ e.deleted = true)
      ∧ (e ∈ listTrash e.from_ st ↔ e.deleted = true))
    ∧ ∀ st0, WellFormed st0 → (∀ e ∈ loadAllEmails st0, e.id ≠ toString sampleSend.now) →
        ∃ st1, send sampleSend st0 = some (.success, st1)
          ∧ (loadAllEmails st1).Perm (assemble sampleSend [] :: loadAllEmails st0) :=
  sent_email_stays_visible [Request.send sampleSendInvalid] sampleLater sampleSend []
    (by decide) rfl (by decide) (by decide) (by decide)
    (by
      intro r2 h _ hm
      have h2 : r2 = sampleSendLater ∨ r2 = sampleSendJson := by
        simpa [sampleLater] using h
      rcases h2 with h2 | h2
      · rw [h2]
        decide
      · rw [h2] at hm
        exact absurd rfl hm)

end MiniMail
